import Mathlib

set_option autoImplicit false
set_option maxHeartbeats 1000000

/-!
Verification development for the ProxiBase mirroring reverse proxy.

Strings are modelled as lists of characters (`Str`), so that the Python
string operations used by the code (`split`, `lstrip`, `endswith`,
slicing) become ordinary list functions amenable to induction.
-/

namespace ProxiBase

/-- Strings, modelled as lists of characters. -/
abbrev Str := List Char

/-- Conversion from a Lean string literal to the list-of-characters model. -/
def str (s : String) : Str := s.toList

/-- Split a list at the first occurrence of the character `c`:
`splitFirst c l = (before, some after)` when `c` occurs, `(l, none)` otherwise.
This models Python `s.split(c, 1)` (and `partition`). -/
def splitFirst (c : Char) : Str → Str × Option Str
  | [] => ([], none)
  | a :: l =>
    if a = c then ([], some l)
    else
      let r := splitFirst c l
      (a :: r.1, r.2)

/-- Lowercase every character; models Python `str.lower()` on ASCII data. -/
def toLowerStr (l : Str) : Str := l.map Char.toLower

/-- The part of `l` after the last occurrence of `c` (all of `l` when `c` does
not occur); models Python `l.rpartition(c)[2]`. -/
def afterLast (c : Char) (l : Str) : Str :=
  ((splitFirst c l.reverse).1).reverse

/-!  ### `app/core/domain_mapping.py`  -/

/-- `map_mirror_host_to_origin_host(mirror_host, mirror_root, source_root)`:
exact match maps the roots, a `x.mirror_root` host maps to `x.source_root`,
anything else is returned unchanged. -/
def map_mirror_host_to_origin_host (mirror_host mirror_root source_root : Str) : Str :=
  if mirror_host = mirror_root then source_root
  else
    let suffix := '.' :: mirror_root
    if suffix.isSuffixOf mirror_host then
      (mirror_host.take (mirror_host.length - suffix.length)) ++ '.' :: source_root
    else mirror_host

/-!  ### `app/core/url_utils.py`  -/

/-- `is_encoded_external_domain(path_segment)`: a segment looks like a domain
iff it contains at least one dot and no spaces. -/
def is_encoded_external_domain (seg : Str) : Bool :=
  seg.contains '.' && !seg.contains ' '

/-- `build_origin_url(mirror_host, mirror_path, site_source_root, mirror_root)`
from `app/core/url_utils.py`.  The path is normalised to start with `/`; if the
first non-empty segment looks like an encoded external domain the origin URL
targets that domain, otherwise the mirror host is mapped to the origin host. -/
def build_origin_url (mirror_host mirror_path site_source_root : Str)
    (mirror_root : Option Str) : Str :=
  let mp := if (str "/").isPrefixOf mirror_path then mirror_path else '/' :: mirror_path
  let stripped := mp.dropWhile (fun c => c = '/')
  if stripped.isEmpty then
    let origin_host :=
      match mirror_root with
      | some mr => map_mirror_host_to_origin_host mirror_host mr site_source_root
      | none => site_source_root
    str "https://" ++ origin_host ++ str "/"
  else
    let parts := splitFirst '/' stripped
    let first_segment := parts.1
    let remaining_path :=
      match parts.2 with
      | some rest => '/' :: rest
      | none => str "/"
    if is_encoded_external_domain first_segment then
      if remaining_path = str "/" then str "https://" ++ first_segment ++ str "/"
      else str "https://" ++ first_segment ++ remaining_path
    else
      let origin_host :=
        match mirror_root with
        | some mr => map_mirror_host_to_origin_host mirror_host mr site_source_root
        | none => site_source_root
      str "https://" ++ origin_host ++ mp

/-- Characters allowed in a URL scheme by `urllib.parse`. -/
def schemeChar (c : Char) : Bool :=
  (c.isAlpha && c.toNat < 128) || c.isDigit || c = '+' || c = '-' || c = '.'

/-- The components produced by `urllib.parse.urlsplit`. -/
structure UrlParts where
  scheme : Str
  netloc : Str
  path : Str
  query : Str
  fragment : Str
deriving DecidableEq, Repr

/-- Scheme extraction step of `urlsplit`: the text before the first `:` is a
scheme when it is non-empty, made of scheme characters and starting with an
ASCII letter; it is lowercased and stripped from the URL. -/
def schemeSplitFn (url : Str) : Str × Str :=
  match splitFirst ':' url with
  | (before, some after) =>
    if before ≠ [] && before.all schemeChar &&
        (match before.head? with
         | some c => c.isAlpha && c.toNat < 128
         | none => false) then
      (toLowerStr before, after)
    else ([], url)
  | (_, none) => ([], url)

/-- A character that terminates the netloc of a URL. -/
def netDelim (c : Char) : Bool := c = '/' || c = '?' || c = '#'

/-- Netloc extraction step of `urlsplit`: after a leading `//`, the netloc
runs up to the next `/`, `?` or `#`. -/
def netSplitFn (rest : Str) : Str × Str :=
  if (str "//").isPrefixOf rest then
    ((rest.drop 2).takeWhile (fun c => !netDelim c),
     (rest.drop 2).dropWhile (fun c => !netDelim c))
  else ([], rest)

/-- Model of `urllib.parse.urlsplit`, assembled from the two steps above,
then splitting off the fragment at the first `#` and the query at the
first `?`. -/
def pyUrlsplit (url : Str) : UrlParts :=
  let s := schemeSplitFn url
  let n := netSplitFn s.2
  let fragSplit := splitFirst '#' n.2
  let querySplit := splitFirst '?' fragSplit.1
  ⟨s.1, n.1, querySplit.1, querySplit.2.getD [], fragSplit.2.getD []⟩

/-- Model of the `hostname` accessor of a parsed URL: drop userinfo (text up
to the last `@`), handle a bracketed IPv6 literal, drop the `:port` part and
lowercase.  The empty list stands for Python's `None`. -/
def hostnameOf (netloc : Str) : Str :=
  let hostinfo := afterLast '@' netloc
  if hostinfo.contains '[' then
    toLowerStr ((splitFirst '[' hostinfo).2.getD [] |>.takeWhile (fun c => c ≠ ']'))
  else
    toLowerStr (hostinfo.takeWhile (fun c => c ≠ ':'))

/-- Hostname of a URL string, as used throughout the code
(`urlparse(url).hostname`, empty = missing; `urlparse` and `urlsplit` agree
on the netloc, so the hostname can be read off the `urlsplit` parse). -/
def urlHostname (url : Str) : Str := hostnameOf (pyUrlsplit url).netloc

/-!  ### `urllib.parse.urlparse` — params splitting and the `ValueError` path

The code calls `urlparse`, which is `urlsplit` followed by splitting
`;params` off the last path segment (CPython 3.11 `_splitparams`); call
sites that read only the scheme, netloc or hostname use `pyUrlsplit`
directly since the two parses agree there, and call sites that read the
path go through `pyUrlparse`.  `urlsplit` raises `ValueError` on netlocs
with mismatched square brackets or an invalid bracketed host
(`_check_bracketed_host`); that path is the predicate `urlsplitRaises`,
transcribed from CPython 3.11 `urllib.parse` and `ipaddress`.  The model
covers ASCII URLs that carry none of the control characters `urlsplit`
strips (tab, CR, LF, and leading C0-control/space); the NFKC netloc check
`_checknetloc` cannot fire on ASCII netlocs. -/

/-- Python `l.split(c)` (all pieces, empties kept). -/
def splitAll (c : Char) : Str → List Str
  | [] => [[]]
  | a :: t =>
    if a = c then [] :: splitAll c t
    else
      match splitAll c t with
      | s :: rest => (a :: s) :: rest
      | [] => [[a]]

/-- The final segment of a path: the text after the last `/` (the whole
path when it has no `/`). -/
def lastSegment (p : Str) : Str := (splitFirst '/' p.reverse).1.reverse

/-- CPython `urllib.parse._splitparams`: split `;params` off the last path
segment (off the whole path when it has no `/`). -/
def pySplitparams (url : Str) : Str × Str :=
  if url.contains '/' then
    match splitFirst ';' (lastSegment url) with
    | (_, none) => (url, [])
    | (seg, some params) =>
      (((splitFirst '/' url.reverse).2.getD []).reverse ++ '/' :: seg, params)
  else
    match splitFirst ';' url with
    | (_, none) => (url, [])
    | (seg, some params) => (seg, params)

/-- `uses_params` from `urllib.parse` (CPython 3.11). -/
def USES_PARAMS : List Str :=
  [str "", str "ftp", str "hdl", str "prospero", str "http", str "imap",
   str "https", str "shttp", str "rtsp", str "rtsps", str "rtspu", str "sip",
   str "sips", str "mms", str "sftp", str "tel"]

/-- Model of `urllib.parse.urlparse`: `urlsplit`, then `;params` split off
the last path segment for schemes that use params.  The `params` component
itself is dropped: no call site in the code reads it. -/
def pyUrlparse (url : Str) : UrlParts :=
  let p := pyUrlsplit url
  if USES_PARAMS.contains p.scheme && p.path.contains ';' then
    { p with path := (pySplitparams p.path).1 }
  else p

/-- ASCII hex digit (CPython `ipaddress` `_HEX_DIGITS`). -/
def pyHexDigit (c : Char) : Bool :=
  ('0' ≤ c && c ≤ '9') || ('a' ≤ c && c ≤ 'f') || ('A' ≤ c && c ≤ 'F')

/-- ASCII decimal digit (`str.isascii() and str.isdigit()`). -/
def pyDecDigit (c : Char) : Bool := '0' ≤ c && c ≤ '9'

/-- Decimal value of a digit string. -/
def decValue (l : Str) : Nat := l.foldl (fun n c => n * 10 + (c.toNat - 48)) 0

/-- `IPv4Address._parse_octet` acceptance: non-empty ASCII decimal text of
at most three characters, no leading zero (except `0` itself), value at
most 255. -/
def octetOk (o : Str) : Bool :=
  !o.isEmpty && o.all pyDecDigit && o.length ≤ 3 &&
    (decide (o = str "0") || decide (o.head? ≠ some '0')) && decValue o ≤ 255

/-- `IPv4Address` textual acceptance: no `/`, exactly four octets separated
by `.`. -/
def ipv4TextOk (s : Str) : Bool :=
  !s.contains '/' &&
    (decide ((splitAll '.' s).length = 4) && (splitAll '.' s).all octetOk)

/-- `IPv6Address._parse_hextet` acceptance: hex digits only, at most four,
non-empty (`int('', 16)` raises). -/
def hextetOk (h : Str) : Bool := !h.isEmpty && h.all pyHexDigit && h.length ≤ 4

/-- `IPv6Address._ip_int_from_string` acceptance on the colon-separated
parts, after the IPv4-suffix rewrite: at most nine parts, at most one empty
interior part (the `::`), an empty endpoint only directly at the `::`, at
least one zero-group skipped, and every consumed part a valid hextet. -/
def ipv6PartsOk (parts : List Str) : Bool :=
  let n := parts.length
  let p0 := parts.headD []
  let plast := parts.getLastD []
  let mid := (parts.drop 1).dropLast
  let emptyMid := (mid.filter (fun p => p.isEmpty)).length
  if 9 < n then false
  else if 2 ≤ emptyMid then false
  else if emptyMid = 1 then
    let i := 1 + (mid.takeWhile (fun p => !p.isEmpty)).length
    let hi := if p0.isEmpty then i - 1 else i
    let lo0 := n - i - 1
    let lo := if plast.isEmpty then lo0 - 1 else lo0
    (!p0.isEmpty || decide (i = 1)) && (!plast.isEmpty || decide (lo0 = 1)) &&
      hi + lo ≤ 7 &&
      (parts.take hi).all hextetOk && (parts.drop (n - lo)).all hextetOk
  else
    decide (n = 8) && !p0.isEmpty && !plast.isEmpty && parts.all hextetOk

/-- `IPv6Address._ip_int_from_string` acceptance for a textual address with
no scope id: at least three parts, with an IPv4-style last part converted
to two hextets first. -/
def ipv6AddrOk (addr : Str) : Bool :=
  let parts0 := splitAll ':' addr
  if parts0.length < 3 then false
  else if (parts0.getLastD []).contains '.' then
    ipv4TextOk (parts0.getLastD []) && ipv6PartsOk (parts0.dropLast ++ [str "0", str "0"])
  else ipv6PartsOk parts0

/-- `IPv6Address` textual acceptance including a scope id (`addr%scope`,
scope non-empty without a further `%`); a `/` anywhere is refused. -/
def isIPv6Text (s : Str) : Bool :=
  !s.contains '/' &&
    (match splitFirst '%' s with
     | (addr, some scope) => !scope.isEmpty && !scope.contains '%' && ipv6AddrOk addr
     | (addr, none) => ipv6AddrOk addr)

/-- The IPvFuture shape accepted by `_check_bracketed_host`
(regex `\Av[a-fA-F0-9]+\..+\Z`). -/
def ipvFutureOk (h : Str) : Bool :=
  match h with
  | 'v' :: rest =>
    (match rest.dropWhile pyHexDigit with
     | '.' :: t =>
       !(rest.takeWhile pyHexDigit).isEmpty && !t.isEmpty && t.all (fun c => !(c == '\n'))
     | _ => false)
  | _ => false

/-- `urllib.parse._check_bracketed_host` acceptance: IPvFuture when the text
starts with `v`, otherwise a valid IPv6 literal (a valid IPv4 literal is
refused: "An IPv4 address cannot be in brackets"). -/
def bracketedHostOk (h : Str) : Bool :=
  if (str "v").isPrefixOf h then ipvFutureOk h
  else if ipv4TextOk h then false
  else isIPv6Text h

/-- The `ValueError` path of `urlsplit` (CPython 3.11): after scheme and
netloc extraction, mismatched square brackets in the netloc, or a bracketed
host (`netloc.partition('[')[2].partition(']')[0]`) that
`_check_bracketed_host` refuses. -/
def urlsplitRaises (url : Str) : Bool :=
  let netloc := (netSplitFn (schemeSplitFn url).2).1
  if netloc.contains '[' && netloc.contains ']' then
    !bracketedHostOk ((splitFirst ']' ((splitFirst '[' netloc).2.getD [])).1)
  else netloc.contains '[' || netloc.contains ']'

/-- The URL shapes on which the `urlsplit`/`urlparse` model is exact: ASCII
text carrying none of the control characters `urlsplit` strips (tab, CR,
LF) and not starting with a C0 control or space (which `urlsplit` strips
from the left). -/
def urlModelOk (url : Str) : Prop :=
  (∀ c ∈ url, c.toNat < 128 ∧ c ≠ '\t' ∧ c ≠ '\r' ∧ c ≠ '\n') ∧
    ∀ c ∈ url.take 1, 32 < c.toNat

instance : DecidablePred urlModelOk := fun u => by unfold urlModelOk; infer_instance

/-!  ### Effective configuration (`app/core/config_helper.py`)

`get_effective_config` merges per-site overrides over the global defaults and
yields a plain dict; the rewriter reads it with `.get` and the defaults shown
in the field comments.  The merged dict is modelled as a structure. -/

/-- The effective configuration dict produced by `get_effective_config`.
Nullable text fields use the empty string for Python `None` (both are falsy
in every use site). -/
structure EffectiveConfig where
  proxy_subdomains : Bool := true
  proxy_external_domains : Bool := true
  rewrite_js_redirects : Bool := false
  remove_ads : Bool := false
  inject_ads : Bool := false
  remove_analytics : Bool := false
  media_policy : Str := str "proxy"
  session_mode : Str := str "stateless"
  custom_ad_html : Str := []
  custom_tracker_js : Str := []
deriving DecidableEq, Repr

/-!  ### `app/proxy/rewriter.py` — URL-level functions  -/

/-- `MEDIA_EXTENSIONS` from `app/proxy/rewriter.py`. -/
def MEDIA_EXTENSIONS : List Str :=
  [str ".jpg", str ".jpeg", str ".png", str ".gif", str ".webp", str ".svg",
   str ".ico", str ".bmp",
   str ".mp4", str ".mkv", str ".avi", str ".mov", str ".m3u8", str ".webm",
   str ".flv", str ".wmv",
   str ".mp3", str ".wav", str ".ogg", str ".aac", str ".flac", str ".m4a",
   str ".zip", str ".rar", str ".7z", str ".tar", str ".gz", str ".bz2",
   str ".pdf", str ".doc", str ".docx", str ".xls", str ".xlsx", str ".ppt",
   str ".pptx",
   str ".apk", str ".exe", str ".dmg", str ".deb", str ".rpm",
   str ".ttf", str ".woff", str ".woff2", str ".eot", str ".otf"]

/-- `is_media_url(url)`: a non-empty URL whose lowercased path
(`urlparse(url).path`) ends with one of the media extensions. -/
def is_media_url (url : Str) : Bool :=
  if url.isEmpty then false
  else
    let path := toLowerStr (pyUrlparse url).path
    MEDIA_EXTENSIONS.any (fun ext => ext.isSuffixOf path)

/-- A model of `urllib.parse.urljoin` restricted to the shapes the proxy
meets: empty URLs keep the base, `//`-URLs inherit the base scheme,
root-relative URLs replace the whole path, other relative URLs are resolved
against the directory of the base path (dot segments are not normalised;
the claims below never exercise that corner). -/
def pyUrljoin (base url : Str) : Str :=
  let b := pyUrlsplit base
  if url.isEmpty then base
  else if (str "//").isPrefixOf url then b.scheme ++ ':' :: url
  else if (str "/").isPrefixOf url then
    b.scheme ++ str "://" ++ b.netloc ++ url
  else
    let dir := (splitFirst '/' b.path.reverse).2.getD b.path.reverse |>.reverse
    b.scheme ++ str "://" ++ b.netloc ++ dir ++ '/' :: url

/-- `make_absolute_url(url, base_url)` from `app/proxy/rewriter.py`. -/
def make_absolute_url (url base_url : Str) : Str :=
  if url.isEmpty || (str "data:").isPrefixOf url || (str "javascript:").isPrefixOf url ||
      (str "mailto:").isPrefixOf url || (str "#").isPrefixOf url then url
  else if (str "http://").isPrefixOf url || (str "https://").isPrefixOf url ||
      (str "//").isPrefixOf url then
    if (str "//").isPrefixOf url ∧ ¬ ((str "http://").isPrefixOf url ∨
        (str "https://").isPrefixOf url) then
      (pyUrlsplit base_url).scheme ++ ':' :: url
    else url
  else pyUrljoin base_url url

/-- `url_belongs_to_domain(url, domain)`: the URL's hostname equals the domain
or is a subdomain of it. -/
def url_belongs_to_domain (url domain : Str) : Bool :=
  let hostname := urlHostname url
  if hostname.isEmpty then false
  else if hostname = domain then true
  else ('.' :: domain).isSuffixOf hostname

/-- `map_origin_host_to_mirror_host(origin_host, source_root, mirror_root)`:
the reverse of `map_mirror_host_to_origin_host`. -/
def map_origin_host_to_mirror_host (origin_host source_root mirror_root : Str) : Str :=
  if origin_host = source_root then mirror_root
  else if ('.' :: source_root).isSuffixOf origin_host then
    (origin_host.take (origin_host.length - source_root.length - 1)) ++ '.' :: mirror_root
  else origin_host

/-- `encode_external_url_path(external_host, external_path)` from
`app/proxy/rewriter.py`. -/
def encode_external_url_path (external_host external_path : Str) : Str :=
  let p := if (str "/").isPrefixOf external_path then external_path else '/' :: external_path
  '/' :: (external_host ++ p)

/-- `rewrite_url` from `app/proxy/rewriter.py`: the reverse (origin → mirror)
mapping used on every URL found in HTML/CSS/JS. -/
def rewrite_url (url current_page_origin_url _mirror_host mirror_root site_source_root : Str)
    (effective_config : EffectiveConfig) : Str :=
  if url.isEmpty || (str "data:").isPrefixOf url || (str "javascript:").isPrefixOf url ||
      (str "mailto:").isPrefixOf url || (str "#").isPrefixOf url then url
  else
    let absolute_url := make_absolute_url url current_page_origin_url
    if is_media_url absolute_url && effective_config.media_policy = str "bypass" then
      absolute_url
    else
      let parsed := pyUrlparse absolute_url
      let origin_host := hostnameOf parsed.netloc
      let origin_path := if parsed.path.isEmpty then str "/" else parsed.path
      let query := parsed.query
      let fragment := parsed.fragment
      if origin_host.isEmpty then url
      else if url_belongs_to_domain absolute_url site_source_root then
        let new_mirror_host := map_origin_host_to_mirror_host origin_host site_source_root mirror_root
        let path_with_query :=
          origin_path ++ (if query.isEmpty then [] else '?' :: query) ++
            (if fragment.isEmpty then [] else '#' :: fragment)
        str "https://" ++ new_mirror_host ++ path_with_query
      else if !effective_config.proxy_external_domains then absolute_url
      else
        let encoded_path :=
          encode_external_url_path origin_host origin_path ++
            (if query.isEmpty then [] else '?' :: query) ++
            (if fragment.isEmpty then [] else '#' :: fragment)
        str "https://" ++ mirror_root ++ encoded_path

/-!  ### Toolkit lemmas about the string model  -/

theorem splitFirst_of_not_mem {c : Char} {l : Str} (h : c ∉ l) :
    splitFirst c l = (l, none) := by
  induction l with
  | nil => rfl
  | cons a t ih =>
    simp only [List.mem_cons, not_or] at h
    simp [splitFirst, if_neg (Ne.symm h.1), ih h.2]

theorem splitFirst_append {c : Char} {l₁ l₂ : Str} (h : c ∉ l₁) :
    splitFirst c (l₁ ++ c :: l₂) = (l₁, some l₂) := by
  induction l₁ with
  | nil => simp [splitFirst]
  | cons a t ih =>
    simp only [List.mem_cons, not_or] at h
    simp [splitFirst, if_neg (Ne.symm h.1), ih h.2]

theorem takeWhile_append_all {p : Char → Bool} {l₁ l₂ : Str} (h : ∀ a ∈ l₁, p a) :
    (l₁ ++ l₂).takeWhile p = l₁ ++ l₂.takeWhile p := by
  induction l₁ with
  | nil => simp
  | cons a t ih =>
    have ha : p a := h a (List.mem_cons_self a t)
    simp [List.takeWhile_cons, ha, ih (fun x hx => h x (List.mem_cons_of_mem a hx))]

theorem dropWhile_append_all {p : Char → Bool} {l₁ l₂ : Str} (h : ∀ a ∈ l₁, p a) :
    (l₁ ++ l₂).dropWhile p = l₂.dropWhile p := by
  induction l₁ with
  | nil => simp
  | cons a t ih =>
    have ha : p a := h a (List.mem_cons_self a t)
    simp [List.dropWhile_cons, ha, ih (fun x hx => h x (List.mem_cons_of_mem a hx))]

/-- Characters that may appear in the hostnames quantified over below: no URL
delimiters or userinfo/bracket characters, and lowercase-stable (DNS names). -/
def charOk (c : Char) : Prop :=
  c ≠ '/' ∧ c ≠ ':' ∧ c ≠ '?' ∧ c ≠ '#' ∧ c ≠ '@' ∧ c ≠ '[' ∧ c ≠ ']' ∧
    c ≠ ' ' ∧ c.toLower = c

instance : DecidablePred charOk := fun c => by unfold charOk; infer_instance

/-- Well-formed hostname: non-empty and made of `charOk` characters. -/
def hostOk (h : Str) : Prop := h ≠ [] ∧ ∀ c ∈ h, charOk c

instance : DecidablePred hostOk := fun h => by unfold hostOk; infer_instance

theorem charOk_dot : charOk '.' := by decide

theorem hostOk_append_dot {x s : Str} (hx : ∀ c ∈ x, charOk c) (hs : hostOk s) :
    hostOk (x ++ '.' :: s) := by
  refine ⟨by simp, fun c hc => ?_⟩
  rcases List.mem_append.1 hc with h | h
  · exact hx c h
  · rcases List.mem_cons.1 h with h | h
    · exact h ▸ charOk_dot
    · exact hs.2 c h

/-- Scheme extraction on the URLs the forward mapper builds. -/
theorem schemeSplitFn_https (R : Str) :
    schemeSplitFn (str "https" ++ ':' :: R) = (str "https", R) := by
  have h1 : splitFirst ':' (str "https" ++ ':' :: R) = (str "https", some R) :=
    splitFirst_append (by decide)
  have h2 : toLowerStr (str "https") = str "https" := by decide
  simp only [schemeSplitFn, h1]
  simp +decide [h2]

/-- Netloc extraction on a well-formed host followed by a path. -/
theorem netSplitFn_append (host path : Str) (hh : ∀ c ∈ host, charOk c)
    (hp : path = [] ∨ path.head? = some '/') :
    netSplitFn (str "//" ++ (host ++ path)) = (host, path) := by
  have hpre : (str "//").isPrefixOf (str "//" ++ (host ++ path)) = true := by
    rw [List.isPrefixOf_iff_prefix]; exact List.prefix_append _ _
  have hdrop : (str "//" ++ (host ++ path)).drop 2 = host ++ path := rfl
  have hcond : ∀ a ∈ host, (fun c => !netDelim c) a = true := by
    intro a ha
    obtain ⟨h₁, _, h₃, h₄, _⟩ := hh a ha
    simp [netDelim, h₁, h₃, h₄]
  have htake : (host ++ path).takeWhile (fun c => !netDelim c) = host := by
    rw [takeWhile_append_all hcond]
    rcases hp with h | h
    · simp [h]
    · match path, h with
      | c :: t, h =>
        simp only [List.head?_cons, Option.some.injEq] at h
        subst h
        simp [List.takeWhile_cons, netDelim]
  have hdropw : (host ++ path).dropWhile (fun c => !netDelim c) = path := by
    rw [dropWhile_append_all hcond]
    rcases hp with h | h
    · simp [h]
    · match path, h with
      | c :: t, h =>
        simp only [List.head?_cons, Option.some.injEq] at h
        subst h
        simp [List.dropWhile_cons, netDelim]
  unfold netSplitFn
  rw [if_pos hpre, hdrop, htake, hdropw]

/-- Parsing the URLs that the forward mapper builds: scheme `https`,
a well-formed host, and a path that is empty or starts with `/` and contains
no query or fragment delimiters. -/
theorem pyUrlsplit_https (host path : Str) (hh : ∀ c ∈ host, charOk c)
    (hp : path = [] ∨ path.head? = some '/')
    (hq : '?' ∉ path) (hf : '#' ∉ path) :
    pyUrlsplit (str "https://" ++ host ++ path) = ⟨str "https", host, path, [], []⟩ := by
  have e : str "https://" ++ host ++ path =
      str "https" ++ ':' :: (str "//" ++ (host ++ path)) := by
    simp [str, List.append_assoc]
  rw [e]
  simp only [pyUrlsplit, schemeSplitFn_https, netSplitFn_append host path hh hp,
    splitFirst_of_not_mem hf, splitFirst_of_not_mem hq, Option.getD_none]

/-- `_splitparams` is a no-op on a path (with a `/`) whose final segment has
no `;`. -/
theorem pySplitparams_eq_self {p : Str} (hsl : p.contains '/' = true)
    (hs : ';' ∉ lastSegment p) : pySplitparams p = (p, []) := by
  unfold pySplitparams
  rw [if_pos hsl, splitFirst_of_not_mem hs]

/-- `urlparse` agrees with `urlsplit` whenever the split path is rooted (or
empty) and its final segment carries no `;params`. -/
theorem pyUrlparse_of_split {u : Str} {parts : UrlParts}
    (hsplit : pyUrlsplit u = parts)
    (hp : parts.path = [] ∨ parts.path.head? = some '/')
    (hs : ';' ∉ lastSegment parts.path) :
    pyUrlparse u = parts := by
  unfold pyUrlparse
  rw [hsplit]
  dsimp only
  by_cases hc : parts.path.contains ';' = true
  · have hne : parts.path ≠ [] := by
      intro hz; rw [hz] at hc; exact absurd hc (by decide)
    have hhead : parts.path.head? = some '/' := by
      rcases hp with hz | hh
      · exact absurd hz hne
      · exact hh
    have hsl : parts.path.contains '/' = true := by
      match hpp : parts.path, hhead with
      | c :: t, hhead =>
        simp only [List.head?_cons, Option.some.injEq] at hhead
        subst hhead
        rfl
    simp [pySplitparams_eq_self hsl hs]
  · have hcf : parts.path.contains ';' = false := by
      cases hcc : parts.path.contains ';'
      · rfl
      · exact absurd hcc hc
    rw [hcf]
    simp

/-- Lowercasing is the identity on lowercase-stable strings. -/
theorem toLowerStr_ok {l : Str} (h : ∀ c ∈ l, c.toLower = c) : toLowerStr l = l := by
  induction l with
  | nil => rfl
  | cons a t ih =>
    simp only [toLowerStr, List.map_cons]
    rw [h a (List.mem_cons_self a t)]
    have ht := ih (fun c hc => h c (List.mem_cons_of_mem a hc))
    simp only [toLowerStr] at ht
    rw [ht]

/-- The `hostname` accessor is the identity on well-formed hostnames. -/
theorem hostnameOf_ok {host : Str} (hh : ∀ c ∈ host, charOk c) :
    hostnameOf host = host := by
  have hat : '@' ∉ host.reverse := by
    simp only [List.mem_reverse]
    exact fun h => ((hh _ h).2.2.2.2.1) rfl
  have hrev : afterLast '@' host = host := by
    simp [afterLast, splitFirst_of_not_mem hat]
  have hbr : host.contains '[' = false := by
    simpa using fun h => ((hh _ h).2.2.2.2.2.1) rfl
  have htk : host.takeWhile (fun c => c ≠ ':') = host := by
    rw [List.takeWhile_eq_self_iff]
    intro a ha
    simpa using (hh a ha).2.1
  have hlow : toLowerStr host = host :=
    toLowerStr_ok (fun c hc => (hh c hc).2.2.2.2.2.2.2.2)
  simp only [hostnameOf]
  rw [hrev, hbr]
  rw [if_neg (by decide : ¬(false = true))]
  rw [htk, hlow]

theorem map_mirror_host_self (M S : Str) :
    map_mirror_host_to_origin_host M M S = S := by
  simp [map_mirror_host_to_origin_host]

/-- The forward host mapping on a subdomain of the mirror root. -/
theorem map_mirror_host_sub (x M S : Str) :
    map_mirror_host_to_origin_host (x ++ '.' :: M) M S = x ++ '.' :: S := by
  have hne : x ++ '.' :: M ≠ M := by
    intro hcontra
    have hlen := congrArg List.length hcontra
    rw [List.length_append, List.length_cons] at hlen
    omega
  have hsuf : ('.' :: M).isSuffixOf (x ++ '.' :: M) = true := by
    rw [List.isSuffixOf_iff_suffix]; exact List.suffix_append _ _
  have htake : (x ++ '.' :: M).take ((x ++ '.' :: M).length - ('.' :: M).length) = x := by
    have hlen : (x ++ '.' :: M).length - ('.' :: M).length = x.length := by
      rw [List.length_append, List.length_cons]; omega
    rw [hlen, List.take_left]
  simp only [map_mirror_host_to_origin_host]
  rw [if_neg hne]
  simp only [hsuf, if_true, htake]

theorem map_origin_host_self (S M : Str) :
    map_origin_host_to_mirror_host S S M = M := by
  simp [map_origin_host_to_mirror_host]

/-- The reverse host mapping on a subdomain of the source root. -/
theorem map_origin_host_sub (x S M : Str) :
    map_origin_host_to_mirror_host (x ++ '.' :: S) S M = x ++ '.' :: M := by
  have hne : x ++ '.' :: S ≠ S := by
    intro hcontra
    have hlen := congrArg List.length hcontra
    rw [List.length_append, List.length_cons] at hlen
    omega
  have hsuf : ('.' :: S).isSuffixOf (x ++ '.' :: S) = true := by
    rw [List.isSuffixOf_iff_suffix]; exact List.suffix_append _ _
  have htake : (x ++ '.' :: S).take ((x ++ '.' :: S).length - S.length - 1) = x := by
    have hlen : (x ++ '.' :: S).length - S.length - 1 = x.length := by
      rw [List.length_append, List.length_cons]; omega
    rw [hlen, List.take_left]
  simp only [map_origin_host_to_mirror_host]
  rw [if_neg hne]
  simp only [hsuf, if_true, htake]

/-- Host-level round trip: mapping a mirror host to its origin host and back
is the identity for hosts in the mirror namespace. -/
theorem host_round_trip (M S h : Str)
    (hh : h = M ∨ ∃ x, h = x ++ '.' :: M) :
    map_origin_host_to_mirror_host (map_mirror_host_to_origin_host h M S) S M = h := by
  rcases hh with rfl | ⟨x, rfl⟩
  · rw [map_mirror_host_self, map_origin_host_self]
  · rw [map_mirror_host_sub, map_origin_host_sub]

theorem http_isPrefixOf_https (X : Str) :
    (str "http://").isPrefixOf (str "https://" ++ X) = false := by
  have e : str "https://" ++ X = 'h' :: 't' :: 't' :: 'p' :: 's' :: ':' :: '/' :: '/' :: X := by
    simp [str]
  rw [e]
  simp +decide [str, List.isPrefixOf]

theorem slashslash_isPrefixOf_https (X : Str) :
    (str "//").isPrefixOf (str "https://" ++ X) = false := by
  have e : str "https://" ++ X = 'h' :: 't' :: 't' :: 'p' :: 's' :: ':' :: '/' :: '/' :: X := by
    simp [str]
  rw [e]
  simp +decide [str, List.isPrefixOf]

theorem https_isPrefixOf_https (X : Str) :
    (str "https://").isPrefixOf (str "https://" ++ X) = true := by
  rw [List.isPrefixOf_iff_prefix]; exact List.prefix_append _ _

/-- None of the pass-through URL shapes (`data:`, `javascript:`, `mailto:`,
`#`, empty) match an `https://` URL. -/
theorem not_special_https (X : Str) :
    ((str "https://" ++ X).isEmpty || (str "data:").isPrefixOf (str "https://" ++ X) ||
      (str "javascript:").isPrefixOf (str "https://" ++ X) ||
      (str "mailto:").isPrefixOf (str "https://" ++ X) ||
      (str "#").isPrefixOf (str "https://" ++ X)) = false := by
  have e : str "https://" ++ X = 'h' :: 't' :: 't' :: 'p' :: 's' :: ':' :: '/' :: '/' :: X := by
    simp [str]
  rw [e]
  simp +decide [str, List.isPrefixOf, List.isEmpty]

/-- `make_absolute_url` passes absolute `https://` URLs through unchanged. -/
theorem make_absolute_url_https (X base : Str) :
    make_absolute_url (str "https://" ++ X) base = str "https://" ++ X := by
  unfold make_absolute_url
  simp only [not_special_https, http_isPrefixOf_https, https_isPrefixOf_https,
    slashslash_isPrefixOf_https, Bool.false_eq_true, Bool.or_true, Bool.or_false,
    Bool.false_or, Bool.true_or]
  simp

/-- `rewrite_url` on an in-namespace absolute URL with a well-formed host:
the host is mapped back through the reverse host mapping and the path,
whose final segment carries no `;params`, is preserved (an empty path
becomes `/`). -/
theorem rewrite_url_mirror (ohost path cur mh M S : Str) (cfg : EffectiveConfig)
    (hhost : ohost ≠ []) (hch : ∀ c ∈ ohost, charOk c)
    (hp : path = [] ∨ path.head? = some '/')
    (hq : '?' ∉ path) (hf : '#' ∉ path) (hsemi : ';' ∉ lastSegment path)
    (hmedia : cfg.media_policy ≠ str "bypass")
    (hbelong : ohost = S ∨ ('.' :: S).isSuffixOf ohost = true) :
    rewrite_url (str "https://" ++ (ohost ++ path)) cur mh M S cfg =
      str "https://" ++ map_origin_host_to_mirror_host ohost S M ++
        (if path.isEmpty then str "/" else path) := by
  have hsplit : pyUrlsplit (str "https://" ++ (ohost ++ path)) =
      ⟨str "https", ohost, path, [], []⟩ := by
    have hps := pyUrlsplit_https ohost path hch hp hq hf
    rwa [List.append_assoc] at hps
  have hsplitP : pyUrlparse (str "https://" ++ (ohost ++ path)) =
      ⟨str "https", ohost, path, [], []⟩ :=
    pyUrlparse_of_split hsplit hp hsemi
  have hhn : hostnameOf ohost = ohost := hostnameOf_ok hch
  have hie : ohost.isEmpty = false := by
    cases ohost with
    | nil => exact absurd rfl hhost
    | cons a t => rfl
  have hbel : url_belongs_to_domain (str "https://" ++ (ohost ++ path)) S = true := by
    unfold url_belongs_to_domain urlHostname
    rw [hsplit]
    simp only [hhn, hie]
    rcases hbelong with rfl | hsfx
    · simp
    · simp [hsfx]
  have hmp : (decide (cfg.media_policy = str "bypass")) = false := decide_eq_false hmedia
  simp only [rewrite_url, not_special_https, make_absolute_url_https, hsplit, hsplitP, hhn,
    hie, hbel, hmp, Bool.false_eq_true, Bool.and_false, if_false]
  simp

/-- `build_origin_url` when the path consists only of slashes (or is empty):
the origin URL is the mapped host with the default path `/`. -/
theorem build_origin_url_root (h p S M : Str)
    (hp : p = [] ∨ p.head? = some '/')
    (hstr : p.dropWhile (fun c => c = '/') = []) :
    build_origin_url h p S (some M) =
      str "https://" ++ map_mirror_host_to_origin_host h M S ++ str "/" := by
  rcases hp with rfl | hhead
  · simp [build_origin_url]
  · match p, hhead with
    | c :: t, hhead =>
      simp only [List.head?_cons, Option.some.injEq] at hhead
      subst hhead
      have hpre : (str "/").isPrefixOf ('/' :: t) = true := by
        simp +decide [str, List.isPrefixOf]
      simp only [build_origin_url, hpre, if_true, hstr]
      simp

/-- `build_origin_url` when the path has a non-empty first segment that is not
an encoded external domain: the origin URL is the mapped host followed by the
path verbatim. -/
theorem build_origin_url_normal (h p S M : Str)
    (hhead : p.head? = some '/')
    (hstr : p.dropWhile (fun c => c = '/') ≠ [])
    (hseg : is_encoded_external_domain (splitFirst '/' (p.dropWhile (fun c => c = '/'))).1
      = false) :
    build_origin_url h p S (some M) =
      str "https://" ++ map_mirror_host_to_origin_host h M S ++ p := by
  match p, hhead with
  | c :: t, hhead =>
    simp only [List.head?_cons, Option.some.injEq] at hhead
    subst hhead
    have hpre : (str "/").isPrefixOf ('/' :: t) = true := by
      simp +decide [str, List.isPrefixOf]
    have hie : (('/' :: t).dropWhile (fun c => c = '/')).isEmpty = false := by
      cases hde : ('/' :: t).dropWhile (fun c => c = '/') with
      | nil => exact absurd hde hstr
      | cons a l => rfl
    simp only [build_origin_url, hpre, if_true, hie, hseg, Bool.false_eq_true, if_false]

/-- C1 (amended): round trip of the URL mapper.  For every mirror root `M`,
source root `S`, host `h` equal to `M` or a subdomain `x.M`, and path `p`
whose first segment is not an encoded external domain and whose final
segment carries no `;` (see `C1_counterexample`: `urlparse` splits a
`;suffix` of the last segment off as params and `rewrite_url` drops it),
applying the forward mapping (`build_origin_url`) and then the reverse
mapping (`rewrite_url`) yields the URL `https://h ++ p'` where `p'` differs
from `p` only by the default path `/`.  Hosts are well-formed DNS names
(`hostOk`) and the effective media policy is not `bypass` (under `bypass`
the reverse mapper deliberately leaves media URLs on the origin). -/
theorem C1_url_mapper_round_trip (M S h p cur mh : Str) (cfg : EffectiveConfig)
    (_hM : hostOk M) (hS : hostOk S)
    (hh : h = M ∨ ∃ x, (∀ c ∈ x, charOk c) ∧ h = x ++ '.' :: M)
    (hp : p = [] ∨ p.head? = some '/')
    (hq : '?' ∉ p) (hf : '#' ∉ p) (hsemi : ';' ∉ lastSegment p)
    (hseg : is_encoded_external_domain
      (splitFirst '/' (p.dropWhile (fun c => c = '/'))).1 = false)
    (hmedia : cfg.media_policy ≠ str "bypass") :
    rewrite_url (build_origin_url h p S (some M)) cur mh M S cfg =
      str "https://" ++ h ++
        (if p.dropWhile (fun c => c = '/') = [] then str "/" else p) := by
  have hcases : (map_mirror_host_to_origin_host h M S = S ∧ h = M) ∨
      (∃ x, (∀ c ∈ x, charOk c) ∧ h = x ++ '.' :: M ∧
        map_mirror_host_to_origin_host h M S = x ++ '.' :: S) := by
    rcases hh with hM' | ⟨x, hx, hx'⟩
    · exact Or.inl ⟨by rw [hM']; exact map_mirror_host_self M S, hM'⟩
    · exact Or.inr ⟨x, hx, hx', by rw [hx']; exact map_mirror_host_sub x M S⟩
  set oh := map_mirror_host_to_origin_host h M S with hoh
  have hohne : oh ≠ [] := by
    rcases hcases with ⟨he, _⟩ | ⟨x, _, _, he⟩
    · rw [he]; exact hS.1
    · rw [he]; simp
  have hohch : ∀ c ∈ oh, charOk c := by
    rcases hcases with ⟨he, _⟩ | ⟨x, hx, _, he⟩
    · rw [he]; exact hS.2
    · rw [he]; exact (hostOk_append_dot hx hS).2
  have hbelong : oh = S ∨ ('.' :: S).isSuffixOf oh = true := by
    rcases hcases with ⟨he, _⟩ | ⟨x, _, _, he⟩
    · exact Or.inl he
    · refine Or.inr ?_
      rw [he, List.isSuffixOf_iff_suffix]
      exact List.suffix_append _ _
  have hback : map_origin_host_to_mirror_host oh S M = h := by
    rcases hcases with ⟨he, hhM⟩ | ⟨x, _, hhx, he⟩
    · rw [he, map_origin_host_self, hhM]
    · rw [he, map_origin_host_sub, hhx]
  by_cases hz : p.dropWhile (fun c => c = '/') = []
  · rw [build_origin_url_root h p S M hp hz, ← hoh]
    rw [List.append_assoc]
    rw [rewrite_url_mirror oh (str "/") cur mh M S cfg hohne hohch (Or.inr rfl)
      (by decide) (by decide) (by decide) hmedia hbelong]
    rw [hback]
    simp [hz]
  · have hhead : p.head? = some '/' := by
      rcases hp with rfl | hhead
      · simp at hz
      · exact hhead
    rw [build_origin_url_normal h p S M hhead hz hseg, ← hoh]
    rw [List.append_assoc]
    rw [rewrite_url_mirror oh p cur mh M S cfg hohne hohch (Or.inr hhead) hq hf
      hsemi hmedia hbelong]
    rw [hback]
    have hpne : p ≠ [] := by
      intro hcontra; rw [hcontra] at hz; simp at hz
    have hpie : p.isEmpty = false := by
      cases p with
      | nil => exact absurd rfl hpne
      | cons a t => rfl
    simp [hz, hpie]

/-- Witness for C1 at a concrete subdomain host and path. -/
theorem C1_url_mapper_round_trip_witness :
    hostOk (str "mirror.com") ∧
      rewrite_url
        (build_origin_url (str "xyz.mirror.com") (str "/foo/bar") (str "source.com")
          (some (str "mirror.com")))
        (str "https://xyz.source.com/foo/bar") (str "xyz.mirror.com")
        (str "mirror.com") (str "source.com") {} =
        str "https://" ++ str "xyz.mirror.com" ++ str "/foo/bar" :=
  ⟨by decide,
   by
    have hc := C1_url_mapper_round_trip (str "mirror.com") (str "source.com")
      (str "xyz.mirror.com") (str "/foo/bar")
      (str "https://xyz.source.com/foo/bar") (str "xyz.mirror.com") {}
      (by decide) (by decide)
      (Or.inr ⟨str "xyz", by decide, by decide⟩)
      (Or.inr (by decide)) (by decide) (by decide) (by decide) (by decide) (by decide)
    simpa using hc⟩

/-- C1 counterexample: the claim as frozen admits `p = /a;b`, but the code's
round trip drops the `;b` — `urlparse` in `rewrite_url` treats it as path
params — so the result differs from `p` by more than the default `/`. -/
theorem C1_counterexample :
    rewrite_url
        (build_origin_url (str "mirror.com") (str "/a;b") (str "source.com")
          (some (str "mirror.com")))
        (str "https://source.com/") (str "mirror.com") (str "mirror.com")
        (str "source.com") {} = str "https://mirror.com/a" ∧
      str "https://mirror.com/a" ≠ str "https://" ++ str "mirror.com" ++ str "/a;b" := by
  exact ⟨by decide, by decide⟩

theorem splitFirst_mem (c : Char) (l : Str) (h : c ∈ l) :
    ∃ b r, splitFirst c l = (b, some r) ∧ l = b ++ c :: r ∧ c ∉ b := by
  induction l with
  | nil => cases h
  | cons a t ih =>
    by_cases hac : a = c
    · subst hac
      exact ⟨[], t, by simp [splitFirst], rfl, by simp⟩
    · have hct : c ∈ t := by
        rcases List.mem_cons.1 h with h1 | h1
        · exact absurd h1.symm hac
        · exact h1
      obtain ⟨b, r, h1, h2, h3⟩ := ih hct
      refine ⟨a :: b, r, ?_, ?_, ?_⟩
      · simp [splitFirst, if_neg hac, h1]
      · rw [List.cons_append, ← h2]
      · simp only [List.mem_cons, not_or]
        exact ⟨fun hca => hac hca.symm, h3⟩

/-- `build_origin_url` when the first segment is an encoded external domain:
the origin URL targets that domain, with the rest of the path (default `/`). -/
theorem build_origin_url_external (h p S M : Str)
    (hhead : p.head? = some '/')
    (hstr : p.dropWhile (fun c => c = '/') ≠ [])
    (hseg : is_encoded_external_domain (splitFirst '/' (p.dropWhile (fun c => c = '/'))).1
      = true) :
    build_origin_url h p S (some M) =
      str "https://" ++ (splitFirst '/' (p.dropWhile (fun c => c = '/'))).1 ++
        (match (splitFirst '/' (p.dropWhile (fun c => c = '/'))).2 with
         | some r => '/' :: r
         | none => str "/") := by
  match p, hhead with
  | c :: t, hhead =>
    simp only [List.head?_cons, Option.some.injEq] at hhead
    subst hhead
    have hpre : (str "/").isPrefixOf ('/' :: t) = true := by
      simp +decide [str, List.isPrefixOf]
    have hie : (('/' :: t).dropWhile (fun c => c = '/')).isEmpty = false := by
      cases hde : ('/' :: t).dropWhile (fun c => c = '/') with
      | nil => exact absurd hde hstr
      | cons a l => rfl
    simp only [build_origin_url, hpre, if_true, hie, hseg, Bool.false_eq_true, if_false]
    split
    · next heq => rw [heq]
    · rfl

/-- C2 (amended): forward mapping correctness.  For a request with host `h`
(equal to the mirror root or a subdomain of it), path `p` and raw query `q`
(glued onto the path by the router), provided the query is empty — and the
path is `/` or has a non-empty first segment — or the query is non-empty and
the path continues past its first segment with a `/`:  if the first non-empty
segment `s₁` of `p` contains a `.` and no spaces, the origin URL is
`https://s₁ + rest (+ query)` with `rest = /` when empty; otherwise it is
`https://` + (`S` for `h = M`, `x.S` for `h = x.M`) + `p` (+ query).  When the
query is non-empty and the first segment is last, the code instead glues the
query into the segment before detection (see the counterexample). -/
theorem C2_forward_mapping (M S h x p q : Str)
    (hh : h = M ∨ h = x ++ '.' :: M)
    (hp : p.head? = some '/')
    (hok : (q = [] ∧ (p = str "/" ∨ p.dropWhile (fun c => c = '/') ≠ [])) ∨
      (q ≠ [] ∧ (p.dropWhile (fun c => c = '/')).contains '/' = true)) :
    build_origin_url h (p ++ (if q.isEmpty then [] else '?' :: q)) S (some M) =
      (if is_encoded_external_domain (splitFirst '/' (p.dropWhile (fun c => c = '/'))).1 then
        str "https://" ++ (splitFirst '/' (p.dropWhile (fun c => c = '/'))).1 ++
          (match (splitFirst '/' (p.dropWhile (fun c => c = '/'))).2 with
           | some r => '/' :: r
           | none => str "/") ++ (if q.isEmpty then [] else '?' :: q)
      else
        str "https://" ++ (if h = M then S else x ++ '.' :: S) ++ p ++
          (if q.isEmpty then [] else '?' :: q)) := by
  have hmapspec : map_mirror_host_to_origin_host h M S =
      (if h = M then S else x ++ '.' :: S) := by
    rcases hh with rfl | rfl
    · rw [map_mirror_host_self, if_pos rfl]
    · have hne : x ++ '.' :: M ≠ M := by
        intro hcontra
        have hlen := congrArg List.length hcontra
        rw [List.length_append, List.length_cons] at hlen
        omega
      rw [map_mirror_host_sub, if_neg hne]
  rcases hok with ⟨rfl, hcase⟩ | ⟨hqne, hcont⟩
  · simp only [List.isEmpty_nil, if_true, List.append_nil]
    rcases hcase with rfl | hstr
    · have hz : (str "/").dropWhile (fun c => c = '/') = [] := by decide
      rw [build_origin_url_root h (str "/") S M (Or.inr rfl) hz, hmapspec, hz]
      rw [if_neg (show ¬(is_encoded_external_domain (splitFirst '/' ([] : Str)).1 = true)
        from by decide)]
    · by_cases henc : is_encoded_external_domain
        (splitFirst '/' (p.dropWhile (fun c => c = '/'))).1 = true
      · rw [build_origin_url_external h p S M hp hstr henc]
        simp [henc]
      · have henc' : is_encoded_external_domain
            (splitFirst '/' (p.dropWhile (fun c => c = '/'))).1 = false := by
          simpa using henc
        rw [build_origin_url_normal h p S M hp hstr henc', hmapspec]
        simp [henc']
  · have hqie : q.isEmpty = false := by
      cases q with
      | nil => exact absurd rfl hqne
      | cons a t => rfl
    simp only [hqie, Bool.false_eq_true, if_false]
    have hmem : '/' ∈ p.dropWhile (fun c => c = '/') := by simpa using hcont
    have hstrne : p.dropWhile (fun c => c = '/') ≠ [] := by
      intro hz; rw [hz] at hmem; cases hmem
    obtain ⟨b, r, h1, h2, h3⟩ := splitFirst_mem '/' (p.dropWhile (fun c => c = '/')) hmem
    have hgluehead : (p ++ '?' :: q).head? = some '/' := by
      match p, hp with
      | c :: t, hp =>
        simp only [List.head?_cons, Option.some.injEq] at hp
        subst hp
        rfl
    have hstrie : (p.dropWhile (fun c => c = '/')).isEmpty = false := by
      cases hde : p.dropWhile (fun c => c = '/') with
      | nil => exact absurd hde hstrne
      | cons a l => rfl
    have hglue : (p ++ '?' :: q).dropWhile (fun c => c = '/') =
        p.dropWhile (fun c => c = '/') ++ '?' :: q := by
      rw [List.dropWhile_append, hstrie]
      simp
    have hgluesplit : splitFirst '/' ((p ++ '?' :: q).dropWhile (fun c => c = '/')) =
        (b, some (r ++ '?' :: q)) := by
      rw [hglue, h2, List.append_assoc, List.cons_append]
      exact splitFirst_append h3
    have hgluene : (p ++ '?' :: q).dropWhile (fun c => c = '/') ≠ [] := by
      rw [hglue]
      intro hz
      exact hstrne (List.append_eq_nil.1 hz).1
    have hb1 : (splitFirst '/' (p.dropWhile (fun c => c = '/'))).1 = b := by rw [h1]
    by_cases henc : is_encoded_external_domain b = true
    · rw [build_origin_url_external h (p ++ '?' :: q) S M hgluehead hgluene
        (by rw [hgluesplit]; exact henc)]
      rw [hgluesplit, hb1, h1]
      simp only [henc, if_true]
      simp
    · have henc' : is_encoded_external_domain b = false := by simpa using henc
      rw [build_origin_url_normal h (p ++ '?' :: q) S M hgluehead hgluene
        (by rw [hgluesplit]; exact henc'), hmapspec, hb1]
      simp only [henc', Bool.false_eq_true, if_false]
      simp

/-- Witness for C2 on a concrete external-domain path with a query whose path
continues past the first segment, and discharge of the side conditions. -/
theorem C2_forward_mapping_witness :
    (str "/a.com/path").head? = some '/' ∧
      build_origin_url (str "mirror.com")
        (str "/a.com/path" ++ '?' :: str "q=1") (str "source.com")
        (some (str "mirror.com")) = str "https://a.com/path?q=1" :=
  ⟨by decide,
   by
    have hc := C2_forward_mapping (str "mirror.com") (str "source.com")
      (str "mirror.com") (str "") (str "/a.com/path") (str "q=1")
      (Or.inl rfl) (by decide)
      (Or.inr ⟨by decide, by decide⟩)
    simpa using hc⟩

/-- C2 counterexample (the claim as stated): for the request path `/a.com`
with query `q=1` the router glues the query onto the path, the code treats
`a.com?q=1` as the encoded segment and returns `https://a.com?q=1/` — the
default `/` lands after the query — whereas the claim requires
`https://a.com/?q=1` (rest `/`, query preserved verbatim). -/
theorem C2_counterexample :
    build_origin_url (str "mirror.com") (str "/a.com" ++ '?' :: str "q=1")
        (str "source.com") (some (str "mirror.com")) = str "https://a.com?q=1/" ∧
      str "https://a.com?q=1/" ≠
        str "https://" ++ str "a.com" ++ str "/" ++ str "?q=1" := by decide

/-!  ### `app/core/security.py` — SSRF guard

`socket.gethostbyname` resolves a hostname to a single IPv4 address (it never
returns IPv6); it is modelled by a `resolve` parameter returning the address
as a number, `none` standing for `socket.gaierror`.  The `ipaddress`
classifiers are modelled after CPython: `is_loopback` is `127.0.0.0/8`,
`is_reserved` is `240.0.0.0/4`, `is_link_local` is `169.254.0.0/16`, and
`is_private` is membership in CPython's `_private_networks` list. -/

/-- `ipv4 a b c d` is the numeric value of the dotted quad `a.b.c.d`. -/
def ipv4 (a b c d : Nat) : Nat := ((a * 256 + b) * 256 + c) * 256 + d

/-- Membership of an IPv4 address in a CIDR network `base/maskBits`. -/
def inNet4 (ip base maskBits : Nat) : Bool :=
  ip / 2 ^ (32 - maskBits) == base / 2 ^ (32 - maskBits)

/-- CPython `ipaddress` `_private_networks` for IPv4. -/
def pyPrivateNets : List (Nat × Nat) :=
  [(ipv4 0 0 0 0, 8), (ipv4 10 0 0 0, 8), (ipv4 127 0 0 0, 8),
   (ipv4 169 254 0 0, 16), (ipv4 172 16 0 0, 12), (ipv4 192 0 0 0, 29),
   (ipv4 192 0 0 170, 31), (ipv4 192 0 2 0, 24), (ipv4 192 168 0 0, 16),
   (ipv4 198 18 0 0, 15), (ipv4 198 51 100 0, 24), (ipv4 203 0 113 0, 24),
   (ipv4 240 0 0 0, 4), (ipv4 255 255 255 255, 32)]

/-- `IPv4Address.is_loopback`. -/
def pyIsLoopback (ip : Nat) : Bool := inNet4 ip (ipv4 127 0 0 0) 8

/-- `IPv4Address.is_private` (CPython's list, wider than RFC1918). -/
def pyIsPrivate (ip : Nat) : Bool := pyPrivateNets.any (fun nb => inNet4 ip nb.1 nb.2)

/-- `IPv4Address.is_reserved`. -/
def pyIsReserved (ip : Nat) : Bool := inNet4 ip (ipv4 240 0 0 0) 4

/-- `IPv4Address.is_link_local`. -/
def pyIsLinkLocal (ip : Nat) : Bool := inNet4 ip (ipv4 169 254 0 0) 16

/-- The `try` body of `is_safe_origin_url` after `urlparse` succeeded
(reason strings abbreviated: the Python code interpolates the address into
them).  Only the scheme and hostname of the parse are read, on which
`urlparse` and `urlsplit` agree. -/
def is_safe_origin_checks (resolve : Str → Option Nat) (url : Str) : Bool × Str :=
  let parsed := pyUrlsplit url
  if ¬(parsed.scheme = str "http" ∨ parsed.scheme = str "https") then
    (false, str "Invalid scheme. Only HTTP/HTTPS allowed")
  else
    let hostname := hostnameOf parsed.netloc
    if hostname.isEmpty then (false, str "Missing hostname")
    else if toLowerStr hostname = str "localhost" ∨ toLowerStr hostname = str "127.0.0.1" ∨
        toLowerStr hostname = str "::1" then
      (false, str "Blocked: localhost access not allowed")
    else
      match resolve hostname with
      | none => (true, str "OK")
      | some ip =>
        if pyIsLoopback ip then (false, str "Blocked: loopback address")
        else if pyIsPrivate ip then (false, str "Blocked: private IP address")
        else if pyIsReserved ip then (false, str "Blocked: reserved IP address")
        else if pyIsLinkLocal ip then (false, str "Blocked: link-local address")
        else if inNet4 ip (ipv4 127 0 0 0) 8 then (false, str "Blocked: 127.0.0.0/8 range")
        else if inNet4 ip (ipv4 10 0 0 0) 8 then (false, str "Blocked: 10.0.0.0/8 range")
        else if inNet4 ip (ipv4 172 16 0 0) 12 then (false, str "Blocked: 172.16.0.0/12 range")
        else if inNet4 ip (ipv4 192 168 0 0) 16 then (false, str "Blocked: 192.168.0.0/16 range")
        else if inNet4 ip (ipv4 169 254 0 0) 16 then (false, str "Blocked: 169.254.0.0/16 range")
        else (true, str "OK")

/-- `is_safe_origin_url(url)` from `app/core/security.py`: when `urlparse`
raises (`urlsplitRaises`), the outer `except Exception` returns unsafe with
a validation-error reason; otherwise the `try` body decides. -/
def is_safe_origin_url (resolve : Str → Option Nat) (url : Str) : Bool × Str :=
  if urlsplitRaises url then (false, str "Validation error")
  else is_safe_origin_checks resolve url

/-- The unsafe condition exactly as claim C3 states it: bad scheme, missing
hostname, literal localhost, or resolution to a loopback / RFC1918-private
(10/8, 172.16/12, 192.168/16) / link-local / reserved address. -/
def claim_unsafe_cond (resolve : Str → Option Nat) (url : Str) : Prop :=
  let parsed := pyUrlsplit url
  let hostname := hostnameOf parsed.netloc
  ¬(parsed.scheme = str "http" ∨ parsed.scheme = str "https") ∨
    (hostname = [] ∨
      ((toLowerStr hostname = str "localhost" ∨ toLowerStr hostname = str "127.0.0.1" ∨
        toLowerStr hostname = str "::1") ∨
        (match resolve hostname with
         | none => False
         | some ip => pyIsLoopback ip = true ∨ inNet4 ip (ipv4 10 0 0 0) 8 = true ∨
             inNet4 ip (ipv4 172 16 0 0) 12 = true ∨ inNet4 ip (ipv4 192 168 0 0) 16 = true ∨
             pyIsLinkLocal ip = true ∨ pyIsReserved ip = true)))

/-- The unsafe condition with `private` read as CPython's `is_private`
(the amended form of claim C3). -/
def amended_unsafe_cond (resolve : Str → Option Nat) (url : Str) : Prop :=
  let parsed := pyUrlsplit url
  let hostname := hostnameOf parsed.netloc
  ¬(parsed.scheme = str "http" ∨ parsed.scheme = str "https") ∨
    (hostname = [] ∨
      ((toLowerStr hostname = str "localhost" ∨ toLowerStr hostname = str "127.0.0.1" ∨
        toLowerStr hostname = str "::1") ∨
        (match resolve hostname with
         | none => False
         | some ip => pyIsLoopback ip = true ∨ pyIsPrivate ip = true ∨
             pyIsLinkLocal ip = true ∨ pyIsReserved ip = true)))

theorem private_of_10 {ip : Nat} (h : inNet4 ip (ipv4 10 0 0 0) 8 = true) :
    pyIsPrivate ip = true := by
  simp only [pyIsPrivate, pyPrivateNets, List.any_eq_true]
  exact ⟨(ipv4 10 0 0 0, 8), by simp, h⟩

theorem private_of_172 {ip : Nat} (h : inNet4 ip (ipv4 172 16 0 0) 12 = true) :
    pyIsPrivate ip = true := by
  simp only [pyIsPrivate, pyPrivateNets, List.any_eq_true]
  exact ⟨(ipv4 172 16 0 0, 12), by simp, h⟩

theorem private_of_192168 {ip : Nat} (h : inNet4 ip (ipv4 192 168 0 0) 16 = true) :
    pyIsPrivate ip = true := by
  simp only [pyIsPrivate, pyPrivateNets, List.any_eq_true]
  exact ⟨(ipv4 192 168 0 0, 16), by simp, h⟩

/-- The `try` body returns unsafe exactly under the amended condition. -/
theorem ssrf_checks_iff (resolve : Str → Option Nat) (url : Str) :
    (is_safe_origin_checks resolve url).1 = false ↔ amended_unsafe_cond resolve url := by
  unfold is_safe_origin_checks amended_unsafe_cond
  dsimp only
  by_cases h1 : (pyUrlsplit url).scheme = str "http" ∨ (pyUrlsplit url).scheme = str "https"
  · rw [if_neg (not_not_intro h1)]
    by_cases h2 : (hostnameOf (pyUrlsplit url).netloc).isEmpty = true
    · have h2e : hostnameOf (pyUrlsplit url).netloc = [] := by
        cases hh : hostnameOf (pyUrlsplit url).netloc with
        | nil => rfl
        | cons a t => rw [hh] at h2; cases h2
      rw [if_pos h2]
      exact iff_of_true rfl (Or.inr (Or.inl h2e))
    · have h2n : hostnameOf (pyUrlsplit url).netloc ≠ [] := by
        intro hz; rw [hz] at h2; exact h2 rfl
      rw [if_neg h2]
      by_cases h3 : toLowerStr (hostnameOf (pyUrlsplit url).netloc) = str "localhost" ∨
          toLowerStr (hostnameOf (pyUrlsplit url).netloc) = str "127.0.0.1" ∨
          toLowerStr (hostnameOf (pyUrlsplit url).netloc) = str "::1"
      · rw [if_pos h3]
        exact iff_of_true rfl (Or.inr (Or.inr (Or.inl h3)))
      · rw [if_neg h3]
        cases hres : resolve (hostnameOf (pyUrlsplit url).netloc) with
        | none =>
          refine iff_of_false (by simp) ?_
          intro hc
          rcases hc with hc | hc | hc | hc
          · exact hc h1
          · exact h2n hc
          · exact h3 hc
          · exact hc
        | some ip =>
          by_cases hL : pyIsLoopback ip = true
          · exact iff_of_true (by simp [hL]) (Or.inr (Or.inr (Or.inr (Or.inl hL))))
          · by_cases hP : pyIsPrivate ip = true
            · have hLf : pyIsLoopback ip = false := by simpa using hL
              exact iff_of_true (by simp [hLf, hP])
                (Or.inr (Or.inr (Or.inr (Or.inr (Or.inl hP)))))
            · by_cases hR : pyIsReserved ip = true
              · have hLf : pyIsLoopback ip = false := by simpa using hL
                have hPf : pyIsPrivate ip = false := by simpa using hP
                exact iff_of_true (by simp [hLf, hPf, hR])
                  (Or.inr (Or.inr (Or.inr (Or.inr (Or.inr (Or.inr hR))))))
              · by_cases hLL : pyIsLinkLocal ip = true
                · have hLf : pyIsLoopback ip = false := by simpa using hL
                  have hPf : pyIsPrivate ip = false := by simpa using hP
                  have hRf : pyIsReserved ip = false := by simpa using hR
                  exact iff_of_true (by simp [hLf, hPf, hRf, hLL])
                    (Or.inr (Or.inr (Or.inr (Or.inr (Or.inr (Or.inl hLL))))))
                · have hLf : pyIsLoopback ip = false := by simpa using hL
                  have hPf : pyIsPrivate ip = false := by simpa using hP
                  have hRf : pyIsReserved ip = false := by simpa using hR
                  have hLLf : pyIsLinkLocal ip = false := by simpa using hLL
                  have e127 : inNet4 ip (ipv4 127 0 0 0) 8 = false := hLf
                  have e10 : inNet4 ip (ipv4 10 0 0 0) 8 = false := by
                    by_contra hx
                    exact hP (private_of_10 (by simpa using hx))
                  have e172 : inNet4 ip (ipv4 172 16 0 0) 12 = false := by
                    by_contra hx
                    exact hP (private_of_172 (by simpa using hx))
                  have e192 : inNet4 ip (ipv4 192 168 0 0) 16 = false := by
                    by_contra hx
                    exact hP (private_of_192168 (by simpa using hx))
                  have e169 : inNet4 ip (ipv4 169 254 0 0) 16 = false := hLLf
                  refine iff_of_false
                    (by simp [hLf, hPf, hRf, hLLf, e127, e10, e172, e192, e169]) ?_
                  intro hc
                  rcases hc with hc | hc | hc | hc
                  · exact hc h1
                  · exact h2n hc
                  · exact h3 hc
                  · rcases hc with hx | hx | hx | hx
                    · exact hL hx
                    · exact hP hx
                    · exact hLL hx
                    · exact hR hx
  · rw [if_pos h1]
    exact iff_of_true rfl (Or.inl h1)

/-- C3 (amended): on URLs inside the model's domain (ASCII without the
control characters `urlsplit` strips), the SSRF guard returns unsafe
exactly when `urlparse` raises (mismatched or invalid bracketed netloc: the
`Validation error` path of the outer `except`), the scheme is not
http/https, the hostname is missing, the hostname is literally
`localhost`/`127.0.0.1`/`::1`, or the hostname resolves to an address that
is loopback, private in CPython's `ipaddress` sense (which besides RFC1918
also contains 0.0.0.0/8, 192.0.0.0/29, 192.0.0.170/31, 192.0.2.0/24,
198.18.0.0/15, 198.51.100.0/24, 203.0.113.0/24, 240.0.0.0/4 and
255.255.255.255/32), link-local, or reserved; when name resolution fails
the URL is accepted. -/
theorem C3_ssrf_guard (resolve : Str → Option Nat) (url : Str)
    (_hurl : urlModelOk url) :
    (is_safe_origin_url resolve url).1 = false ↔
      urlsplitRaises url = true ∨ amended_unsafe_cond resolve url := by
  unfold is_safe_origin_url
  by_cases hr : urlsplitRaises url = true
  · rw [if_pos hr]
    exact iff_of_true rfl (Or.inl hr)
  · rw [if_neg hr]
    rw [ssrf_checks_iff]
    constructor
    · exact Or.inr
    · rintro (hc | hc)
      · exact absurd hc hr
      · exact hc

/-- C3's guard at a concrete URL with a resolver that fails: no raise, good
scheme and hostname, resolution failure, hence safe on both sides. -/
theorem C3_ssrf_guard_witness :
    urlModelOk (str "http://example.com/") ∧
      ((is_safe_origin_url (fun _ => none) (str "http://example.com/")).1 = false ↔
        urlsplitRaises (str "http://example.com/") = true ∨
          amended_unsafe_cond (fun _ => none) (str "http://example.com/")) :=
  ⟨by decide, C3_ssrf_guard (fun _ => none) (str "http://example.com/") (by decide)⟩

/-- C3 counterexample: a hostname resolving to `192.0.2.1` (TEST-NET-1, which
is in CPython's `is_private` but in none of the classes the claim lists) is
rejected by the code while the claim as stated deems the URL safe. -/
theorem C3_counterexample :
    (is_safe_origin_url (fun _ => some (ipv4 192 0 2 1)) (str "http://example.com/")).1
        = false ∧
      ¬ claim_unsafe_cond (fun _ => some (ipv4 192 0 2 1)) (str "http://example.com/") := by
  refine ⟨by decide, ?_⟩
  intro hc
  rcases hc with hc | hc | hc | hc
  · exact hc (Or.inl (by decide))
  · exact absurd hc (by decide)
  · rcases hc with hx | hx | hx
    · exact absurd hx (by decide)
    · exact absurd hx (by decide)
    · exact absurd hx (by decide)
  · rcases hc with hx | hx | hx | hx | hx | hx
    · exact absurd hx (by decide)
    · exact absurd hx (by decide)
    · exact absurd hx (by decide)
    · exact absurd hx (by decide)
    · exact absurd hx (by decide)
    · exact absurd hx (by decide)

/-!  ### `app/core/session_manager.py`

`hmac.new(SECRET_KEY, token, sha256).hexdigest()` is modelled by an abstract
function `hmacHex : Str → Str`, fixed for the ambient `SECRET_KEY`; a real
hex digest is 64 characters of `[0-9a-f]`, whence the hypothesis used below
that it never contains `.`.  `verify_session_id` is a total function (the
Python `try/except` that turns any exception into `None` has nothing left to
catch in the model). -/

/-- The text before the last occurrence of `c` (all of `l` when `c` does not
occur); models Python `l.rsplit(c, 1)[0]`. -/
def beforeLast (c : Char) (l : Str) : Str :=
  ((splitFirst c l.reverse).2.getD l.reverse).reverse

/-- `sign_session_id(session_id)`: `{session_id}.{hexdigest}`. -/
def sign_session_id (hmacHex : Str → Str) (session_id : Str) : Str :=
  session_id ++ '.' :: hmacHex session_id

/-- `verify_session_id(signed_session_id)`: require a `.`, split at the last
`.`, recompute the signature, compare, and return the session id on match. -/
def verify_session_id (hmacHex : Str → Str) (signed : Str) : Option Str :=
  if '.' ∈ signed then
    let session_id := beforeLast '.' signed
    let provided_signature := afterLast '.' signed
    if hmacHex session_id = provided_signature then some session_id else none
  else none

/-- `create_signed_session_cookie()` signs a fresh random token; the token is
a parameter here (randomness is outside the model). -/
def create_signed_session_cookie (hmacHex : Str → Str) (token : Str) : Str :=
  sign_session_id hmacHex token

/-- Splitting at the last `c`: decomposition of a list that contains `c`. -/
theorem beforeLast_afterLast_spec {c : Char} {l : Str} (h : c ∈ l) :
    l = beforeLast c l ++ c :: afterLast c l ∧ c ∉ afterLast c l := by
  have hrev : c ∈ l.reverse := by simpa using h
  obtain ⟨b, r, h1, h2, h3⟩ := splitFirst_mem c l.reverse hrev
  have hb : beforeLast c l = r.reverse := by
    simp [beforeLast, h1]
  have ha : afterLast c l = b.reverse := by
    simp [afterLast, h1]
  constructor
  · rw [hb, ha]
    have := congrArg List.reverse h2
    simpa using this
  · rw [ha]
    simpa using h3

/-- Splitting `t ++ '.' :: s` at the last `.` recovers `(t, s)` when `s` is
dot-free (`t` may contain dots). -/
theorem split_signed {t s : Str} (hs : '.' ∉ s) :
    beforeLast '.' (t ++ '.' :: s) = t ∧ afterLast '.' (t ++ '.' :: s) = s := by
  have hrev : (t ++ '.' :: s).reverse = s.reverse ++ '.' :: t.reverse := by
    simp
  have hsr : '.' ∉ s.reverse := by simpa using hs
  have h1 : splitFirst '.' (s.reverse ++ '.' :: t.reverse) = (s.reverse, some t.reverse) :=
    splitFirst_append hsr
  constructor
  · unfold beforeLast
    rw [hrev, h1]
    simp
  · unfold afterLast
    rw [hrev, h1]
    simp

/-- C5: session mint/verify exactness.  Under a fixed secret (abstracted as
the keyed digest `hmacHex`, whose hex output never contains `.`):
verify accepts exactly the strings produced by signing — round trip, and any
accepted string is literally `token.hexdigest` —; replacing the signature
half by any other dot-free string is rejected; and replacing the token half
by any token with a different digest (HMAC collision-freedom is the standard
cryptographic reading of "changing any byte") is rejected.  `verify` is a
total function: the model returns `none` instead of raising. -/
theorem C5_session_mint_verify (hmacHex : Str → Str)
    (hhex : ∀ t, '.' ∉ hmacHex t) :
    (∀ t, verify_session_id hmacHex (create_signed_session_cookie hmacHex t) = some t) ∧
      (∀ s t, verify_session_id hmacHex s = some t →
        s = create_signed_session_cookie hmacHex t) ∧
      (∀ t sig, '.' ∉ sig → sig ≠ hmacHex t →
        verify_session_id hmacHex (t ++ '.' :: sig) = none) ∧
      (∀ t t2, hmacHex t2 ≠ hmacHex t →
        verify_session_id hmacHex (t2 ++ '.' :: hmacHex t) = none) := by
  have hmem : ∀ (t s : Str), '.' ∈ t ++ '.' :: s := by
    intro t s
    simp
  refine ⟨?_, ?_, ?_, ?_⟩
  · intro t
    obtain ⟨hb, ha⟩ := split_signed (t := t) (hhex t)
    rw [create_signed_session_cookie, sign_session_id, verify_session_id,
      if_pos (hmem t (hmacHex t))]
    simp [hb, ha]
  · intro s t hv
    rw [verify_session_id] at hv
    by_cases hdot : '.' ∈ s
    · rw [if_pos hdot] at hv
      by_cases hcmp : hmacHex (beforeLast '.' s) = afterLast '.' s
      · rw [if_pos hcmp] at hv
        have ht : beforeLast '.' s = t := by
          simpa using hv
        obtain ⟨hdec, _⟩ := beforeLast_afterLast_spec hdot
        rw [create_signed_session_cookie, sign_session_id, ← ht, ← hcmp] at *
        exact hdec
      · rw [if_neg hcmp] at hv
        cases hv
    · rw [if_neg hdot] at hv
      cases hv
  · intro t sig hdotfree hne
    obtain ⟨hb, ha⟩ := split_signed (t := t) hdotfree
    rw [verify_session_id, if_pos (hmem t sig)]
    simp only [hb, ha]
    rw [if_neg (Ne.symm hne)]
  · intro t t2 hne
    obtain ⟨hb, ha⟩ := split_signed (t := t2) (hhex t)
    rw [verify_session_id, if_pos (hmem t2 (hmacHex t))]
    simp only [hb, ha]
    rw [if_neg hne]

/-- Witness for C5 with a concrete digest function and token. -/
theorem C5_session_mint_verify_witness :
    ('.' ∉ (str "cafe")) ∧
      verify_session_id (fun _ => str "cafe")
        (create_signed_session_cookie (fun _ => str "cafe") (str "token")) =
        some (str "token") := by
  refine ⟨by decide, ?_⟩
  have hhex : ∀ t : Str, '.' ∉ (fun _ : Str => str "cafe") t := by
    intro t
    show '.' ∉ str "cafe"
    decide
  exact (C5_session_mint_verify (fun _ => str "cafe") hhex).1 (str "token")

/-!  ### `app/core/cookie_manager.py` — cookie store

The database table `cookie_jar` (one row per `(site_id, session_id,
origin_host)`, with a JSON-encoded name→value map in `cookie_data`) is
modelled as an association list of rows; the `json.dumps`/`json.loads` round
trip on a string map is the identity and is elided.  Python dicts are
modelled as insertion-ordered association lists with in-place update. -/

/-- A Python dict from names to values: insertion-ordered association list. -/
abbrev CookieMap := List (Str × Str)

/-- `d[k] = v` on a Python dict: replace in place or append. -/
def dictSet (m : CookieMap) (k v : Str) : CookieMap :=
  match m with
  | [] => [(k, v)]
  | (k0, v0) :: t => if k0 = k then (k0, v) :: t else (k0, v0) :: dictSet t k v

/-- `d.get(k)` on a Python dict. -/
def dictGet (m : CookieMap) (k : Str) : Option Str :=
  (m.find? (fun p => p.1 = k)).map (fun p => p.2)

/-- `base.update(upd)` on Python dicts. -/
def dictUpdate (base upd : CookieMap) : CookieMap :=
  upd.foldl (fun acc p => dictSet acc p.1 p.2) base

/-- Python `str.strip()` (whitespace from both ends). -/
def pyStrip (l : Str) : Str :=
  ((l.dropWhile Char.isWhitespace).reverse.dropWhile Char.isWhitespace).reverse

/-- The parse of one `Set-Cookie` header in `store_cookies`: the stripped
text before the first `;`; if it contains `=`, the stripped name/value pair,
otherwise nothing. -/
def header_pair? (h : Str) : Option (Str × Str) :=
  let cookie_pair := pyStrip (splitFirst ';' h).1
  match splitFirst '=' cookie_pair with
  | (name, some value) => some (pyStrip name, pyStrip value)
  | (_, none) => none

/-- The parsing loop of `store_cookies` over all headers (later headers
overwrite earlier ones in the accumulated dict). -/
def parse_set_cookie_pairs (headers : List Str) : CookieMap :=
  headers.foldl
    (fun acc h =>
      match header_pair? h with
      | some p => dictSet acc p.1 p.2
      | none => acc)
    []

/-- The `(site_id, session_id, origin_host)` key of a cookie-jar row. -/
abbrev JarKey := Nat × Str × Str

/-- The cookie-jar table: one row per key. -/
abbrev Jar := List (JarKey × CookieMap)

/-- `store_cookies(db, site_id, session_id, origin_host, headers)`: no-op on
an empty header list or when nothing parses; otherwise merge into the
existing row (last write wins) or create a new row. -/
def store_cookies (jar : Jar) (key : JarKey) (headers : List Str) : Jar :=
  if headers.isEmpty then jar
  else
    let cookies := parse_set_cookie_pairs headers
    if cookies.isEmpty then jar
    else
      match jar.find? (fun r => r.1 = key) with
      | some _ =>
        jar.map (fun r => if r.1 = key then (r.1, dictUpdate r.2 cookies) else r)
      | none => jar ++ [(key, cookies)]

/-- `get_cookies(db, site_id, session_id, origin_host)`: the stored map, or
empty. -/
def get_cookies (jar : Jar) (key : JarKey) : CookieMap :=
  ((jar.find? (fun r => r.1 = key)).map (fun r => r.2)).getD []

theorem dictGet_cons_self (k v : Str) (t : CookieMap) :
    dictGet ((k, v) :: t) k = some v := by
  simp [dictGet, List.find?_cons]

theorem dictGet_cons_ne {k n : Str} (hne : ¬(k = n)) (v : Str) (t : CookieMap) :
    dictGet ((k, v) :: t) n = dictGet t n := by
  simp [dictGet, List.find?_cons, hne]

theorem dictGet_dictSet (m : CookieMap) (k v n : Str) :
    dictGet (dictSet m k v) n = if n = k then some v else dictGet m n := by
  induction m with
  | nil =>
    by_cases h : n = k
    · subst h
      simp [dictSet, dictGet_cons_self]
    · have h2 : ¬(k = n) := fun hh => h hh.symm
      rw [if_neg h]
      show dictGet [(k, v)] n = dictGet [] n
      rw [dictGet_cons_ne h2]
  | cons p t ih =>
    obtain ⟨k0, v0⟩ := p
    by_cases h0 : k0 = k
    · subst h0
      have hset : dictSet ((k0, v0) :: t) k0 v = (k0, v) :: t := by
        simp [dictSet]
      rw [hset]
      by_cases h : n = k0
      · subst h
        rw [if_pos rfl, dictGet_cons_self]
      · have h2 : ¬(k0 = n) := fun hh => h hh.symm
        rw [if_neg h, dictGet_cons_ne h2, dictGet_cons_ne h2]
    · have hset : dictSet ((k0, v0) :: t) k v = (k0, v0) :: dictSet t k v := by
        simp [dictSet, h0]
      rw [hset]
      by_cases h : n = k0
      · subst h
        rw [if_neg h0, dictGet_cons_self, dictGet_cons_self]
      · have h2 : ¬(k0 = n) := fun hh => h hh.symm
        rw [dictGet_cons_ne h2, ih, dictGet_cons_ne h2]

theorem dictGet_dictUpdate (upd : CookieMap) (base : CookieMap) (n : Str) :
    dictGet (dictUpdate base upd) n =
      ((upd.reverse.find? (fun p => p.1 = n)).map (fun p => p.2)).or (dictGet base n) := by
  induction upd generalizing base with
  | nil => simp [dictUpdate]
  | cons p t ih =>
    obtain ⟨k, v⟩ := p
    rw [show dictUpdate base ((k, v) :: t) = dictUpdate (dictSet base k v) t from rfl, ih]
    rw [List.reverse_cons, List.find?_append]
    cases hq : t.reverse.find? (fun p => decide (p.1 = n)) with
    | some q => simp
    | none =>
      simp only [Option.map_none, Option.none_or]
      rw [dictGet_dictSet]
      by_cases h : n = k
      · subst h
        simp [List.find?_cons]
      · have h2 : ¬(k = n) := fun hh => h hh.symm
        simp [List.find?_cons, h, h2]

theorem dictSet_length_le (m : CookieMap) (k v : Str) :
    m.length ≤ (dictSet m k v).length := by
  induction m with
  | nil => simp [dictSet]
  | cons p t ih =>
    obtain ⟨k0, v0⟩ := p
    by_cases h : k0 = k
    · simp [dictSet, h]
    · simpa [dictSet, h] using ih

theorem dictUpdate_length_le (upd base : CookieMap) :
    base.length ≤ (dictUpdate base upd).length := by
  induction upd generalizing base with
  | nil => simp [dictUpdate]
  | cons p t ih =>
    calc base.length ≤ (dictSet base p.1 p.2).length := dictSet_length_le base p.1 p.2
      _ ≤ (dictUpdate (dictSet base p.1 p.2) t).length := ih (dictSet base p.1 p.2)
      _ = (dictUpdate base (p :: t)).length := rfl

/-- The parse loop equals a dict update of the empty dict by the
successfully parsed header pairs. -/
theorem parse_eq_update (headers : List Str) :
    parse_set_cookie_pairs headers =
      dictUpdate [] (headers.filterMap header_pair?) := by
  have aux : ∀ (hs : List Str) (init : CookieMap),
      hs.foldl
        (fun acc h =>
          match header_pair? h with
          | some p => dictSet acc p.1 p.2
          | none => acc) init =
      dictUpdate init (hs.filterMap header_pair?) := by
    intro hs
    induction hs with
    | nil => intro init; simp [dictUpdate]
    | cons h t ih =>
      intro init
      cases hph : header_pair? h with
      | some p =>
        simp only [List.foldl_cons, List.filterMap_cons, hph, ih]
        rfl
      | none =>
        simp only [List.foldl_cons, List.filterMap_cons, hph, ih]
  exact aux headers []

/-- Looking up a freshly parsed header list: the value of the last header
that successfully sets the name. -/
theorem dictGet_parse (headers : List Str) (n : Str) :
    dictGet (parse_set_cookie_pairs headers) n =
      ((headers.filterMap header_pair?).reverse.find? (fun p => p.1 = n)).map
        (fun p => p.2) := by
  rw [parse_eq_update, dictGet_dictUpdate]
  simp [dictGet]

/-- Keys of a Python-dict model are pairwise distinct. -/
def keysNodup (m : CookieMap) : Prop := m.Pairwise (fun a b => a.1 ≠ b.1)

theorem mem_dictSet_key {m : CookieMap} {k v : Str} {b : Str × Str}
    (hb : b ∈ dictSet m k v) : b.1 = k ∨ b.1 ∈ m.map Prod.fst := by
  induction m with
  | nil =>
    simp [dictSet] at hb
    simp [hb]
  | cons p t ih =>
    obtain ⟨k0, v0⟩ := p
    simp only [dictSet] at hb
    by_cases hk : k0 = k
    · rw [if_pos hk] at hb
      rcases List.mem_cons.1 hb with hbeq | hbm
      · exact Or.inl (by rw [hbeq]; exact hk)
      · exact Or.inr (List.mem_cons_of_mem _ (List.mem_map_of_mem _ hbm))
    · rw [if_neg hk] at hb
      rcases List.mem_cons.1 hb with hbeq | hbm
      · refine Or.inr ?_
        rw [hbeq]
        exact List.mem_cons_self _ _
      · rcases ih hbm with h | h
        · exact Or.inl h
        · exact Or.inr (List.mem_cons_of_mem _ h)

theorem keysNodup_dictSet {m : CookieMap} (h : keysNodup m) (k v : Str) :
    keysNodup (dictSet m k v) := by
  induction m with
  | nil => simp [dictSet, keysNodup]
  | cons p t ih =>
    obtain ⟨k0, v0⟩ := p
    rw [keysNodup, List.pairwise_cons] at h
    simp only [dictSet]
    by_cases hk : k0 = k
    · rw [if_pos hk]
      rw [keysNodup, List.pairwise_cons]
      exact ⟨h.1, h.2⟩
    · rw [if_neg hk]
      rw [keysNodup, List.pairwise_cons]
      refine ⟨?_, ih h.2⟩
      intro b hb
      rcases mem_dictSet_key hb with hbk | hbm
      · rw [hbk]; exact hk
      · obtain ⟨p, hp, hpk⟩ := List.mem_map.1 hbm
        rw [← hpk]
        exact h.1 p hp

theorem keysNodup_dictUpdate (upd : CookieMap) (base : CookieMap)
    (h : keysNodup base) : keysNodup (dictUpdate base upd) := by
  induction upd generalizing base with
  | nil => exact h
  | cons p t ih => exact ih (dictSet base p.1 p.2) (keysNodup_dictSet h p.1 p.2)

/-- On a dict with distinct keys, the last and the first match agree. -/
theorem reverse_find_eq_dictGet {m : CookieMap} (h : keysNodup m) (n : Str) :
    ((m.reverse.find? (fun p => p.1 = n)).map (fun p => p.2)) = dictGet m n := by
  induction m with
  | nil => simp [dictGet]
  | cons p t ih =>
    obtain ⟨k, v⟩ := p
    rw [keysNodup, List.pairwise_cons] at h
    rw [List.reverse_cons, List.find?_append]
    by_cases hn : n = k
    · subst hn
      have hnone : t.reverse.find? (fun p => p.1 = n) = none := by
        rw [List.find?_eq_none]
        intro x hx
        have hxk := h.1 x (List.mem_reverse.1 hx)
        simpa using fun hc => hxk hc.symm
      rw [hnone, dictGet_cons_self]
      simp [List.find?_cons]
    · have h2 : ¬(k = n) := fun hh => hn hh.symm
      have hnone : [(k, v)].find? (fun p => p.1 = n) = none := by
        simp [List.find?_cons, h2]
      rw [hnone, dictGet_cons_ne h2, ← ih h.2]
      cases t.reverse.find? (fun p => decide (p.1 = n)) <;> simp

/-- Merging into a base map: the merged value is the update's value when the
update defines the name, else the base's. -/
theorem dictGet_update_or (upd base : CookieMap) (n : Str) :
    dictGet (dictUpdate base upd) n =
      (dictGet (dictUpdate [] upd) n).or (dictGet base n) := by
  rw [dictGet_dictUpdate, dictGet_dictUpdate]
  cases (upd.reverse.find? (fun p => p.1 = n)).map (fun p => p.2) with
  | none => simp [dictGet]
  | some v => simp

/-- A row-wise update that fixes keys commutes with the row lookup. -/
theorem find_map_rows (jar : Jar) (key : JarKey) (g : CookieMap → CookieMap) :
    (jar.map (fun r => if r.1 = key then (r.1, g r.2) else r)).find?
        (fun r => r.1 = key) =
      (jar.find? (fun r => r.1 = key)).map (fun r => (r.1, g r.2)) := by
  induction jar with
  | nil => rfl
  | cons r t ih =>
    by_cases h : r.1 = key
    · simp [List.find?_cons, h]
    · simp [List.find?_cons, h, ih]

/-- C7: cookie store merge semantics.  For every row key, stored state and
header list: the value of cookie `n` after `store_cookies` is the value set
by the last header whose `name=value` prefix (stripped text before the first
`;`) names `n`, and otherwise the previously stored value (last-write-wins
merge); an empty header list is a no-op; and concretely, storing `a=1` and
then `a=2`, `b=3` under one key yields the map `{a: 2, b: 3}`. -/
theorem C7_cookie_store_merge (jar : Jar) (key : JarKey) (headers : List Str) (n : Str) :
    (dictGet (get_cookies (store_cookies jar key headers) key) n =
        (((headers.filterMap header_pair?).reverse.find? (fun p => p.1 = n)).map
          (fun p => p.2)).or (dictGet (get_cookies jar key) n)) ∧
      store_cookies jar key [] = jar ∧
      get_cookies
          (store_cookies (store_cookies [] (1, str "sess", str "o.host") [str "a=1"])
            (1, str "sess", str "o.host") [str "a=2", str "b=3"])
          (1, str "sess", str "o.host") =
        [(str "a", str "2"), (str "b", str "3")] := by
  refine ⟨?_, rfl, by decide⟩
  rw [← dictGet_parse]
  unfold store_cookies
  by_cases hhe : headers.isEmpty = true
  · have : headers = [] := by
      cases headers with
      | nil => rfl
      | cons a t => cases hhe
    subst this
    simp [parse_set_cookie_pairs, dictGet, dictUpdate]
  · rw [if_neg hhe]
    by_cases hce : (parse_set_cookie_pairs headers).isEmpty = true
    · have hpe : parse_set_cookie_pairs headers = [] := by
        cases hpc : parse_set_cookie_pairs headers with
        | nil => rfl
        | cons a t => rw [hpc] at hce; cases hce
      rw [if_pos hce]
      simp [hpe, dictGet]
    · rw [if_neg hce]
      cases hrow : jar.find? (fun r => r.1 = key) with
      | some row =>
        unfold get_cookies
        dsimp only
        rw [find_map_rows jar key (fun m => dictUpdate m (parse_set_cookie_pairs headers)),
          hrow]
        simp only [Option.map_map, Option.map_some', Option.getD_some, Function.comp]
        have hnd : keysNodup (parse_set_cookie_pairs headers) := by
          rw [parse_eq_update]
          exact keysNodup_dictUpdate _ _ (by simp [keysNodup])
        rw [dictGet_dictUpdate, reverse_find_eq_dictGet hnd]
      | none =>
        unfold get_cookies
        dsimp only
        rw [List.find?_append, hrow]
        have hsingle : List.find? (fun r => r.1 = key) [(key, parse_set_cookie_pairs headers)]
            = some (key, parse_set_cookie_pairs headers) := by
          simp [List.find?_cons]
        simp only [Option.none_or, hsingle, Option.map_some, Option.getD_some,
          Option.map_none, Option.getD_none]
        simp [dictGet]

/-!  ### `app/core/rate_limiter.py`

`InMemoryRateLimiter` keeps, per client IP, the list of admitted request
timestamps.  `is_allowed(ip)` touches only that IP's list and the mutex
serialises calls, so one IP's history is a list of call times (rationals,
non-decreasing as real time).  `time.time()` values are call arguments. -/

/-- One `is_allowed` call at time `now` on one IP's timestamp list: evict
entries outside the window, deny when `max_requests` or more remain,
otherwise record `now`.  Result: (allowed, remaining, new list). -/
def is_allowed (N W : Nat) (log : List ℚ) (now : ℚ) : Bool × Int × List ℚ :=
  let kept := log.filter (fun ts => now - (W : ℚ) < ts)
  if N ≤ kept.length then (false, 0, kept)
  else (true, (N : Int) - ((kept.length : Int) + 1), kept ++ [now])

/-- Python `int()` on a float: truncation toward zero. -/
def pyInt (q : ℚ) : Int := if 0 ≤ q then ⌊q⌋ else ⌈q⌉

/-- Python `min` of a non-empty list. -/
def minList (t : ℚ) (ts : List ℚ) : ℚ := ts.foldl min t

/-- `get_retry_after(ip)`: `max(0, int(W - (now - oldest)))`, `0` when the
list is empty. -/
def get_retry_after (W : Nat) (log : List ℚ) (now : ℚ) : Int :=
  match log with
  | [] => 0
  | t :: ts => max 0 (pyInt ((W : ℚ) - (now - minList t ts)))

/-- The admitted (recorded) call times of a sequence of `is_allowed` calls
starting from a given list state. -/
def admittedTimes (N W : Nat) : List ℚ → List ℚ → List ℚ
  | _, [] => []
  | log, t :: ts =>
    let r := is_allowed N W log t
    if r.1 then t :: admittedTimes N W r.2.2 ts
    else admittedTimes N W r.2.2 ts

theorem pyInt_mono {q q' : ℚ} (h : q ≤ q') : pyInt q ≤ pyInt q' := by
  unfold pyInt
  by_cases h1 : 0 ≤ q
  · rw [if_pos h1, if_pos (le_trans h1 h)]
    exact Int.floor_le_floor h
  · by_cases h2 : 0 ≤ q'
    · rw [if_neg h1, if_pos h2]
      have hc : ⌈q⌉ ≤ 0 := by
        have := Int.ceil_le.2 (by simpa using le_of_lt (lt_of_not_ge h1) : q ≤ ((0 : Int) : ℚ))
        simpa using this
      calc ⌈q⌉ ≤ 0 := hc
        _ ≤ ⌊q'⌋ := Int.le_floor.2 (by exact_mod_cast h2)
    · rw [if_neg h1, if_neg h2]
      exact Int.ceil_le_ceil h

theorem pyInt_le_natCast {q : ℚ} {W : Nat} (h : q ≤ (W : ℚ)) : pyInt q ≤ (W : Int) := by
  unfold pyInt
  by_cases h1 : 0 ≤ q
  · rw [if_pos h1]
    calc ⌊q⌋ ≤ ⌊(W : ℚ)⌋ := Int.floor_le_floor h
      _ = (W : Int) := by exact_mod_cast Int.floor_natCast W
  · rw [if_neg h1]
    have hc : ⌈q⌉ ≤ 0 := by
      have := Int.ceil_le.2 (by simpa using le_of_lt (lt_of_not_ge h1) : q ≤ ((0 : Int) : ℚ))
      simpa using this
    calc ⌈q⌉ ≤ 0 := hc
      _ ≤ (W : Int) := Int.ofNat_nonneg W

theorem minList_mem (t : ℚ) (ts : List ℚ) : minList t ts ∈ t :: ts := by
  induction ts generalizing t with
  | nil => simp [minList]
  | cons u us ih =>
    have hmem := ih (min t u)
    rcases List.mem_cons.1 hmem with h | h
    · rcases min_choice t u with hc | hc
      · rw [minList, List.foldl_cons]
        rw [minList] at h
        rw [h, hc]
        exact List.mem_cons_self _ _
      · rw [minList, List.foldl_cons]
        rw [minList] at h
        rw [h, hc]
        exact List.mem_cons_of_mem _ (List.mem_cons_self _ _)
    · rw [minList, List.foldl_cons]
      exact List.mem_cons_of_mem _ (List.mem_cons_of_mem _ h)

theorem length_filter_mono {p q : ℚ → Bool} {l : List ℚ}
    (h : ∀ x ∈ l, p x = true → q x = true) :
    (l.filter p).length ≤ (l.filter q).length := by
  induction l with
  | nil => simp
  | cons a t ih =>
    have iht := ih (fun x hx => h x (List.mem_cons_of_mem a hx))
    by_cases hp : p a = true
    · rw [List.filter_cons_of_pos hp, List.filter_cons_of_pos (h a (List.mem_cons_self a t) hp)]
      simpa using iht
    · rw [List.filter_cons_of_neg (by simpa using hp)]
      by_cases hq : q a = true
      · rw [List.filter_cons_of_pos hq]
        calc (t.filter p).length ≤ (t.filter q).length := iht
          _ ≤ (t.filter q).length + 1 := Nat.le_succ _
      · rw [List.filter_cons_of_neg (by simpa using hq)]
        exact iht

/-- The sliding-window invariant of the limiter.  If the list state is the
already-admitted times filtered to the window of the last call, every prior
window holds at most `N` admissions, and the pending call times are ordered,
then all windows over the extended admission history hold at most `N`. -/
theorem window_inv (N W : Nat) (hW : 0 < W) (times : List ℚ) :
    ∀ (A log : List ℚ) (last : ℚ),
      times.Pairwise (· ≤ ·) → (∀ t ∈ times, last ≤ t) →
      (∀ x ∈ A, x ≤ last) →
      log = A.filter (fun ts => last - (W : ℚ) < ts) →
      (∀ a : ℚ, ((A.filter (fun x => decide (a < x) && decide (x ≤ a + (W : ℚ))))).length ≤ N) →
      ∀ a : ℚ, (((A ++ admittedTimes N W log times).filter
        (fun x => decide (a < x) && decide (x ≤ a + (W : ℚ))))).length ≤ N := by
  induction times with
  | nil =>
    intro A log last _ _ _ _ hwin a
    simpa [admittedTimes] using hwin a
  | cons t ts ih =>
    intro A log last hpw hge hA hlog hwin a
    have hpc := List.pairwise_cons.1 hpw
    have hlt : last ≤ t := hge t (List.mem_cons_self t ts)
    have hkept : log.filter (fun ts => t - (W : ℚ) < ts) =
        A.filter (fun x => t - (W : ℚ) < x) := by
      rw [hlog, List.filter_filter]
      refine List.filter_congr ?_
      intro x _
      by_cases hx : t - (W : ℚ) < x
      · have hx2 : last - (W : ℚ) < x := lt_of_le_of_lt (by linarith) hx
        simp [hx, hx2]
      · simp [hx]
    by_cases hfull : N ≤ (log.filter (fun ts => t - (W : ℚ) < ts)).length
    · have hr : is_allowed N W log t =
          (false, 0, log.filter (fun ts => t - (W : ℚ) < ts)) := by
        simp only [is_allowed]
        rw [if_pos hfull]
      have hadm : admittedTimes N W log (t :: ts) =
          admittedTimes N W (log.filter (fun ts => t - (W : ℚ) < ts)) ts := by
        rw [admittedTimes, hr]
        simp
      rw [hadm, hkept]
      exact ih A (A.filter (fun x => t - (W : ℚ) < x)) t hpc.2 hpc.1
        (fun x hx => le_trans (hA x hx) hlt) rfl hwin a
    · have hr : is_allowed N W log t =
          (true, (N : Int) - (((log.filter (fun ts => t - (W : ℚ) < ts)).length : Int) + 1),
            log.filter (fun ts => t - (W : ℚ) < ts) ++ [t]) := by
        simp only [is_allowed]
        rw [if_neg hfull]
      have hadm : admittedTimes N W log (t :: ts) =
          t :: admittedTimes N W (log.filter (fun ts => t - (W : ℚ) < ts) ++ [t]) ts := by
        rw [admittedTimes, hr]
        simp
      rw [hadm]
      have hlen : (log.filter (fun ts => t - (W : ℚ) < ts)).length < N :=
        Nat.lt_of_not_le hfull
      have hlog2 : log.filter (fun ts => t - (W : ℚ) < ts) ++ [t] =
          (A ++ [t]).filter (fun x => t - (W : ℚ) < x) := by
        rw [List.filter_append, hkept]
        have : [t].filter (fun x => t - (W : ℚ) < x) = [t] := by
          have ht : t - (W : ℚ) < t := by
            have : (0 : ℚ) < (W : ℚ) := by exact_mod_cast hW
            linarith
          simp [ht]
        rw [this]
      have hwin2 : ∀ a' : ℚ,
          (((A ++ [t]).filter (fun x => decide (a' < x) && decide (x ≤ a' + (W : ℚ))))).length
            ≤ N := by
        intro a'
        rw [List.filter_append]
        by_cases hin : a' < t ∧ t ≤ a' + (W : ℚ)
        · have hsingle : [t].filter (fun x => decide (a' < x) && decide (x ≤ a' + (W : ℚ)))
              = [t] := by
            simp [hin.1, hin.2]
          rw [hsingle, List.length_append]
          have hmono : (A.filter (fun x => decide (a' < x) && decide (x ≤ a' + (W : ℚ)))).length
              ≤ (A.filter (fun x => t - (W : ℚ) < x)).length := by
            refine length_filter_mono ?_
            intro x _ hx
            simp only [Bool.and_eq_true, decide_eq_true_eq] at hx
            have : t - (W : ℚ) ≤ a' := by linarith [hin.2]
            simp only [decide_eq_true_eq]
            linarith [hx.1]
          rw [← hkept] at hmono
          simp only [List.length_singleton]
          omega
        · have hsingle : [t].filter (fun x => decide (a' < x) && decide (x ≤ a' + (W : ℚ)))
              = [] := by
            rcases Decidable.not_and_iff_or_not.1 hin with h | h
            · simp [h]
            · simp [h]
          rw [hsingle, List.append_nil]
          exact hwin a'
      have hconc : A ++ t :: admittedTimes N W
            (log.filter (fun ts => t - (W : ℚ) < ts) ++ [t]) ts =
          (A ++ [t]) ++ admittedTimes N W
            (log.filter (fun ts => t - (W : ℚ) < ts) ++ [t]) ts := by
        rw [List.append_assoc, List.singleton_append]
      rw [hconc, hlog2]
      exact ih (A ++ [t]) ((A ++ [t]).filter (fun x => t - (W : ℚ) < x)) t hpc.2 hpc.1
        (by
          intro x hx
          rcases List.mem_append.1 hx with hx | hx
          · exact le_trans (hA x hx) hlt
          · rcases List.mem_cons.1 hx with rfl | hx
            · exact le_refl x
            · cases hx)
        rfl hwin2 a

/-- C6: rate limiter admission invariant.  For every ordered sequence of
call times for one client IP (starting from an empty log): (1) at most `N`
calls are admitted per sliding window of `W` seconds; (2) a call finding `N`
or more timestamps in the window returns `(false, 0)` without recording;
(3) an admitted call appends the current time and returns
`(true, N − new list size)`; (4) after a call at time `td` (in particular a
denial), `get_retry_after` is in `[0, W]` and non-increasing as real time
advances. -/
theorem C6_rate_limiter (N W : Nat) (hW : 0 < W) :
    (∀ (times : List ℚ), times.Pairwise (· ≤ ·) →
      ∀ a : ℚ, ((admittedTimes N W [] times).filter
        (fun x => decide (a < x) && decide (x ≤ a + (W : ℚ)))).length ≤ N) ∧
      (∀ (log : List ℚ) (now : ℚ),
        N ≤ (log.filter (fun ts => now - (W : ℚ) < ts)).length →
        is_allowed N W log now = (false, 0, log.filter (fun ts => now - (W : ℚ) < ts))) ∧
      (∀ (log : List ℚ) (now : ℚ),
        (log.filter (fun ts => now - (W : ℚ) < ts)).length < N →
        is_allowed N W log now =
          (true, (N : Int) - (((log.filter (fun ts => now - (W : ℚ) < ts)).length : Int) + 1),
            log.filter (fun ts => now - (W : ℚ) < ts) ++ [now])) ∧
      (∀ (log : List ℚ) (td now1 now2 : ℚ),
        (∀ x ∈ log, x ≤ td) → td ≤ now1 → now1 ≤ now2 →
        (0 ≤ get_retry_after W ((is_allowed N W log td).2.2) now1 ∧
          get_retry_after W ((is_allowed N W log td).2.2) now1 ≤ (W : Int)) ∧
        get_retry_after W ((is_allowed N W log td).2.2) now2 ≤
          get_retry_after W ((is_allowed N W log td).2.2) now1) := by
  refine ⟨?_, ?_, ?_, ?_⟩
  · intro times hpw a
    cases times with
    | nil => simp [admittedTimes]
    | cons t0 ts =>
      refine window_inv N W hW (t0 :: ts) [] [] t0 hpw ?_
        (by intro x hx; cases hx) (by simp) (by intro a'; simp) a
      intro u hu
      rcases List.mem_cons.1 hu with rfl | hu
      · exact le_refl u
      · exact (List.pairwise_cons.1 hpw).1 u hu
  · intro log now hfull
    simp only [is_allowed]
    rw [if_pos hfull]
  · intro log now hlen
    simp only [is_allowed]
    rw [if_neg (Nat.not_le_of_lt hlen)]
  · intro log td now1 now2 hle h1 h2
    have hWQ : (0 : ℚ) < (W : ℚ) := by exact_mod_cast hW
    have key : ∀ (q : List ℚ), (∀ x ∈ q, td - (W : ℚ) < x ∧ x ≤ td) →
        (0 ≤ get_retry_after W q now1 ∧ get_retry_after W q now1 ≤ (W : Int)) ∧
          get_retry_after W q now2 ≤ get_retry_after W q now1 := by
      intro q hq
      cases q with
      | nil =>
        refine ⟨⟨le_refl 0, ?_⟩, le_refl 0⟩
        exact Int.ofNat_nonneg W
      | cons u us =>
        have hm := minList_mem u us
        have hmr := hq _ hm
        have hub1 : (W : ℚ) - (now1 - minList u us) ≤ (W : ℚ) := by
          have : minList u us ≤ now1 := le_trans hmr.2 h1
          linarith
        have hmono : (W : ℚ) - (now2 - minList u us) ≤ (W : ℚ) - (now1 - minList u us) := by
          linarith
        refine ⟨⟨le_max_left 0 _, ?_⟩, ?_⟩
        · exact max_le (Int.ofNat_nonneg W) (pyInt_le_natCast hub1)
        · exact max_le_max (le_refl 0) (pyInt_mono hmono)
    refine key _ ?_
    intro x hx
    simp only [is_allowed] at hx
    by_cases hfull : N ≤ (log.filter (fun ts => td - (W : ℚ) < ts)).length
    · rw [if_pos hfull] at hx
      simp only [List.mem_filter, decide_eq_true_eq] at hx
      exact ⟨hx.2, hle x hx.1⟩
    · rw [if_neg hfull] at hx
      simp only [List.mem_append, List.mem_filter, List.mem_singleton,
        decide_eq_true_eq] at hx
      rcases hx with hx | rfl
      · exact ⟨hx.2, hle x hx.1⟩
      · exact ⟨by linarith, le_refl x⟩

/-- Witness for C6: three ordered calls with limit 2 and a 60-second window
admit at most two requests in the window starting just before time 0. -/
theorem C6_rate_limiter_witness :
    0 < 60 ∧ ((admittedTimes 2 60 [] [0, 10, 20]).filter
      (fun x => decide ((-1 : ℚ) < x) && decide (x ≤ -1 + (60 : ℚ)))).length ≤ 2 :=
  ⟨by decide, (C6_rate_limiter 2 60 (by decide)).1 [0, 10, 20] (by decide) (-1)⟩

/-!  ### HTML documents as node trees

`BeautifulSoup(html, "lxml")` parse trees are modelled as `Node` trees; the
parse/serialise round trip (`str(soup)` re-parsed) is treated as the
identity on trees.  The HTML parser guarantee that everything inside a
`<script>` element is character data is the well-formedness predicate `wfN`
below. -/

/-- An HTML node: an element with a tag, attributes and children, or text. -/
inductive Node where
  | elem (tag : Str) (attrs : List (Str × Str)) (children : List Node)
  | text (s : Str)

/-- Attribute lookup (`tag.get(name)`). -/
def getAttr (attrs : List (Str × Str)) (name : Str) : Option Str :=
  (attrs.find? (fun p => p.1 = name)).map (fun p => p.2)

/-- Substring test: Python `p in l`. -/
def containsSub (p : Str) : Str → Bool
  | [] => p.isPrefixOf []
  | a :: t => p.isPrefixOf (a :: t) || containsSub p t

/-- `tag.string`: the single text child, if any (under `wfN`, script
contents are text, so the recursive single-element case of BeautifulSoup
cannot occur). -/
def scriptText : List Node → Option Str
  | [Node.text s] => some s
  | _ => none

/-!  ### `app/proxy/filter_ads.py`  -/

/-- `AD_PATTERNS` from `app/proxy/filter_ads.py`. -/
def AD_PATTERNS : List Str :=
  [str "doubleclick", str "googlesyndication", str "adsystem", str "adservice",
   str "adsbygoogle", str "googletagmanager", str "google-analytics",
   str "googleadservices"]

/-- `INLINE_SCRIPT_PATTERNS` from `app/proxy/filter_ads.py`. -/
def INLINE_SCRIPT_PATTERNS : List Str :=
  [str "gtag(", str "ga(", str "GoogleAnalyticsObject", str "fbq(",
   str "_gaq", str "dataLayer"]

/-- Removal test of the first clean pass: a `<script>` whose `src` attribute,
lowercased, contains an ad/analytics pattern. -/
def adScriptSrc (n : Node) : Bool :=
  match n with
  | .elem tag attrs _ =>
    tag = str "script" &&
      AD_PATTERNS.any (fun p =>
        containsSub p (toLowerStr ((getAttr attrs (str "src")).getD [])))
  | .text _ => false

/-- Removal test of the second clean pass: an inline `<script>` (no truthy
`src`) whose non-empty text contains a tracking pattern. -/
def adInlineScript (n : Node) : Bool :=
  match n with
  | .elem tag attrs children =>
    tag = str "script" && ((getAttr attrs (str "src")).getD []).isEmpty &&
      (match scriptText children with
       | some s => !s.isEmpty && INLINE_SCRIPT_PATTERNS.any (fun p => containsSub p s)
       | none => false)
  | .text _ => false

/-- Removal test of the third clean pass: an `<iframe>` whose `src`,
lowercased, contains an ad/analytics pattern. -/
def adIframeSrc (n : Node) : Bool :=
  match n with
  | .elem tag attrs _ =>
    tag = str "iframe" &&
      AD_PATTERNS.any (fun p =>
        containsSub p (toLowerStr ((getAttr attrs (str "src")).getD [])))
  | .text _ => false

mutual
/-- `find_all` + `decompose` of one clean pass: remove every descendant
matching `pred` (removed subtrees are not recursed into). -/
def removeNode (pred : Node → Bool) : Node → Node
  | .elem tag attrs children => .elem tag attrs (removeList pred children)
  | .text s => .text s

/-- The list version of `removeNode`. -/
def removeList (pred : Node → Bool) : List Node → List Node
  | [] => []
  | c :: cs => (if pred c then [] else [removeNode pred c]) ++ removeList pred cs
end

/-- `clean_html(html, site_config)`: skip entirely unless `remove_ads` or
`remove_analytics`; otherwise run the three removal passes in code order. -/
def clean_html (cfg : EffectiveConfig) (doc : Node) : Node :=
  if !cfg.remove_ads && !cfg.remove_analytics then doc
  else removeNode adIframeSrc (removeNode adInlineScript (removeNode adScriptSrc doc))

/-- All nodes of a list are text nodes. -/
def allText : List Node → Bool
  | [] => true
  | .text _ :: cs => allText cs
  | .elem _ _ _ :: _ => false

mutual
/-- Parser well-formedness: the children of every `<script>` element are
text nodes (lxml treats script content as character data). -/
def wfN : Node → Bool
  | .elem tag _ children =>
    (!(tag = str "script") || allText children) && wfL children
  | .text _ => true

/-- The list version of `wfN`. -/
def wfL : List Node → Bool
  | [] => true
  | c :: cs => wfN c && wfL cs
end

mutual
/-- No descendant of the node matches `pred`. -/
def cleanN (pred : Node → Bool) : Node → Bool
  | .elem _ _ children => cleanL pred children
  | .text _ => true

/-- The list version of `cleanN`. -/
def cleanL (pred : Node → Bool) : List Node → Bool
  | [] => true
  | c :: cs => (!pred c && cleanN pred c) && cleanL pred cs
end

theorem bandT {a b : Bool} : (a && b) = true ↔ a = true ∧ b = true := by simp

theorem borT {a b : Bool} : (a || b) = true ↔ a = true ∨ b = true := by simp

theorem removeList_allText {q : Node → Bool} (hq : ∀ s, q (.text s) = false)
    {ch : List Node} (h : allText ch = true) : removeList q ch = ch := by
  induction ch with
  | nil => simp [removeList]
  | cons c cs ih =>
    match c with
    | Node.text s =>
      rw [allText] at h
      rw [removeList, hq s]
      simp [removeNode, ih h]
    | Node.elem t a ch0 =>
      rw [allText] at h
      exact absurd h Bool.false_ne_true

theorem adScriptSrc_removeNode (q : Node → Bool) (n : Node) :
    adScriptSrc (removeNode q n) = adScriptSrc n := by
  cases n with
  | text s => simp [removeNode]
  | elem t a ch => simp [removeNode, adScriptSrc]

theorem adIframeSrc_removeNode (q : Node → Bool) (n : Node) :
    adIframeSrc (removeNode q n) = adIframeSrc n := by
  cases n with
  | text s => simp [removeNode]
  | elem t a ch => simp [removeNode, adIframeSrc]

theorem adInlineScript_removeNode {q : Node → Bool} (hq : ∀ s, q (.text s) = false)
    {n : Node} (hwf : wfN n = true) :
    adInlineScript (removeNode q n) = adInlineScript n := by
  cases n with
  | text s => simp [removeNode]
  | elem t a ch =>
    rw [wfN, bandT] at hwf
    by_cases ht : t = str "script"
    · have hat : allText ch = true := by
        rcases borT.1 hwf.1 with h | h
        · rw [Bool.not_eq_eq_eq_not, Bool.not_true, decide_eq_false_iff_not] at h
          exact absurd ht h
        · exact h
      rw [removeNode, removeList_allText hq hat]
    · simp [removeNode, adInlineScript, ht]

/-- The three removal tests are false on text nodes. -/
theorem preds_text_false :
    (∀ s, adScriptSrc (.text s) = false) ∧ (∀ s, adInlineScript (.text s) = false) ∧
      (∀ s, adIframeSrc (.text s) = false) :=
  ⟨fun _ => rfl, fun _ => rfl, fun _ => rfl⟩

theorem allText_removeList (q : Node → Bool) {ch : List Node}
    (h : allText ch = true) : allText (removeList q ch) = true := by
  induction ch with
  | nil => simpa [removeList] using h
  | cons c cs ih =>
    match c with
    | Node.text s =>
      rw [allText] at h
      rw [removeList]
      by_cases hqc : q (Node.text s) = true
      · simp only [hqc, if_true, List.nil_append]
        exact ih h
      · simp only [Bool.not_eq_true] at hqc
        simp only [hqc, Bool.false_eq_true, if_false, List.singleton_append]
        rw [removeNode, allText]
        exact ih h
    | Node.elem t a ch0 =>
      rw [allText] at h
      exact absurd h Bool.false_ne_true

mutual
theorem wfN_removeNode (q : Node → Bool) : ∀ n, wfN n = true → wfN (removeNode q n) = true
  | .text s, _ => by simp [removeNode, wfN]
  | .elem t a ch, h => by
    rw [wfN, bandT] at h
    rw [removeNode, wfN, bandT]
    refine ⟨?_, wfL_removeList q ch h.2⟩
    rcases borT.1 h.1 with h1 | h1
    · exact borT.2 (Or.inl h1)
    · exact borT.2 (Or.inr (allText_removeList q h1))

theorem wfL_removeList (q : Node → Bool) : ∀ ch, wfL ch = true → wfL (removeList q ch) = true
  | [], _ => by simp [removeList, wfL]
  | c :: cs, h => by
    rw [wfL, bandT] at h
    rw [removeList]
    by_cases hqc : q c = true
    · simp only [hqc, if_true, List.nil_append]
      exact wfL_removeList q cs h.2
    · simp only [Bool.not_eq_true] at hqc
      simp only [hqc, Bool.false_eq_true, if_false, List.singleton_append]
      rw [wfL, bandT]
      exact ⟨wfN_removeNode q c h.1, wfL_removeList q cs h.2⟩
end

mutual
theorem cleanN_removeNode_of_stable (p q : Node → Bool)
    (hstab : ∀ m, wfN m = true → p (removeNode q m) = p m) :
    ∀ n, wfN n = true → cleanN p n = true → cleanN p (removeNode q n) = true
  | .text s, _, _ => by simp [removeNode, cleanN]
  | .elem t a ch, hwf, hcl => by
    rw [wfN, bandT] at hwf
    rw [cleanN] at hcl
    rw [removeNode, cleanN]
    exact cleanL_removeList_of_stable p q hstab ch hwf.2 hcl

theorem cleanL_removeList_of_stable (p q : Node → Bool)
    (hstab : ∀ m, wfN m = true → p (removeNode q m) = p m) :
    ∀ ch, wfL ch = true → cleanL p ch = true → cleanL p (removeList q ch) = true
  | [], _, _ => by simp [removeList, cleanL]
  | c :: cs, hwf, hcl => by
    rw [wfL, bandT] at hwf
    rw [cleanL, bandT] at hcl
    have hcl1 := bandT.1 hcl.1
    rw [removeList]
    by_cases hqc : q c = true
    · simp only [hqc, if_true, List.nil_append]
      exact cleanL_removeList_of_stable p q hstab cs hwf.2 hcl.2
    · simp only [Bool.not_eq_true] at hqc
      simp only [hqc, Bool.false_eq_true, if_false, List.singleton_append]
      rw [cleanL, bandT]
      refine ⟨bandT.2 ⟨?_, ?_⟩, ?_⟩
      · rw [hstab c hwf.1]
        exact hcl1.1
      · exact cleanN_removeNode_of_stable p q hstab c hwf.1 hcl1.2
      · exact cleanL_removeList_of_stable p q hstab cs hwf.2 hcl.2
end

mutual
theorem cleanN_removeNode_self (q : Node → Bool)
    (hstab : ∀ m, wfN m = true → q (removeNode q m) = q m) :
    ∀ n, wfN n = true → cleanN q (removeNode q n) = true
  | .text s, _ => by simp [removeNode, cleanN]
  | .elem t a ch, hwf => by
    rw [wfN, bandT] at hwf
    rw [removeNode, cleanN]
    exact cleanL_removeList_self q hstab ch hwf.2

theorem cleanL_removeList_self (q : Node → Bool)
    (hstab : ∀ m, wfN m = true → q (removeNode q m) = q m) :
    ∀ ch, wfL ch = true → cleanL q (removeList q ch) = true
  | [], _ => by simp [removeList, cleanL]
  | c :: cs, hwf => by
    rw [wfL, bandT] at hwf
    rw [removeList]
    by_cases hqc : q c = true
    · simp only [hqc, if_true, List.nil_append]
      exact cleanL_removeList_self q hstab cs hwf.2
    · simp only [Bool.not_eq_true] at hqc
      simp only [hqc, Bool.false_eq_true, if_false, List.singleton_append]
      rw [cleanL, bandT]
      refine ⟨bandT.2 ⟨?_, ?_⟩, ?_⟩
      · rw [hstab c hwf.1, hqc]
        rfl
      · exact cleanN_removeNode_self q hstab c hwf.1
      · exact cleanL_removeList_self q hstab cs hwf.2
end

mutual
theorem removeNode_fix (p : Node → Bool) : ∀ n, cleanN p n = true → removeNode p n = n
  | .text s, _ => by simp [removeNode]
  | .elem t a ch, h => by
    rw [cleanN] at h
    rw [removeNode, removeList_fix p ch h]

theorem removeList_fix (p : Node → Bool) : ∀ ch, cleanL p ch = true → removeList p ch = ch
  | [], _ => by simp [removeList]
  | c :: cs, h => by
    rw [cleanL, bandT] at h
    have h1 := bandT.1 h.1
    rw [removeList]
    have hpc : p c = false := by simpa using h1.1
    simp only [hpc, Bool.false_eq_true, if_false, List.singleton_append]
    rw [removeNode_fix p c h1.2, removeList_fix p cs h.2]
end

/-- C9: clean-pass idempotence.  For every parser-produced HTML tree (script
contents are text) and every configuration, cleaning twice equals cleaning
once; and when both `remove_ads` and `remove_analytics` are false the input
is returned unchanged (the pass is skipped before any parsing). -/
theorem C9_clean_idempotent (cfg : EffectiveConfig) (doc : Node) (hwf : wfN doc = true) :
    clean_html cfg (clean_html cfg doc) = clean_html cfg doc ∧
      (cfg.remove_ads = false → cfg.remove_analytics = false → clean_html cfg doc = doc) := by
  constructor
  · by_cases hflag : (!cfg.remove_ads && !cfg.remove_analytics) = true
    · rw [clean_html, if_pos hflag, clean_html, if_pos hflag]
    · have hskip : ∀ d : Node, clean_html cfg d =
          removeNode adIframeSrc (removeNode adInlineScript (removeNode adScriptSrc d)) := by
        intro d
        rw [clean_html, if_neg hflag]
      have wf1 : wfN (removeNode adScriptSrc doc) = true := wfN_removeNode _ doc hwf
      have wf2 : wfN (removeNode adInlineScript (removeNode adScriptSrc doc)) = true :=
        wfN_removeNode _ _ wf1
      have c1a : cleanN adScriptSrc (removeNode adScriptSrc doc) = true :=
        cleanN_removeNode_self _ (fun m _ => adScriptSrc_removeNode _ m) doc hwf
      have c1b : cleanN adScriptSrc
          (removeNode adInlineScript (removeNode adScriptSrc doc)) = true :=
        cleanN_removeNode_of_stable _ _ (fun m _ => adScriptSrc_removeNode _ m) _ wf1 c1a
      have c1c : cleanN adScriptSrc (removeNode adIframeSrc
          (removeNode adInlineScript (removeNode adScriptSrc doc))) = true :=
        cleanN_removeNode_of_stable _ _ (fun m _ => adScriptSrc_removeNode _ m) _ wf2 c1b
      have c2a : cleanN adInlineScript
          (removeNode adInlineScript (removeNode adScriptSrc doc)) = true :=
        cleanN_removeNode_self _
          (fun m hm => adInlineScript_removeNode preds_text_false.2.1 hm) _ wf1
      have c2b : cleanN adInlineScript (removeNode adIframeSrc
          (removeNode adInlineScript (removeNode adScriptSrc doc))) = true :=
        cleanN_removeNode_of_stable _ _
          (fun m hm => adInlineScript_removeNode preds_text_false.2.2 hm) _ wf2 c2a
      have c3a : cleanN adIframeSrc (removeNode adIframeSrc
          (removeNode adInlineScript (removeNode adScriptSrc doc))) = true :=
        cleanN_removeNode_self _ (fun m _ => adIframeSrc_removeNode _ m) _ wf2
      rw [hskip doc, hskip]
      rw [removeNode_fix adScriptSrc _ c1c]
      rw [removeNode_fix adInlineScript _ c2b]
      rw [removeNode_fix adIframeSrc _ c3a]
  · intro h1 h2
    rw [clean_html, if_pos (by rw [h1, h2]; rfl)]

/-- Witness for C9: a document with one removable ad script. -/
theorem C9_clean_idempotent_witness :
    wfN (Node.elem (str "html") []
        [Node.elem (str "script") [(str "src", str "https://x.doubleclick.net/a.js")] [],
         Node.text (str "hi")]) = true ∧
      clean_html {remove_ads := true}
          (clean_html {remove_ads := true}
            (Node.elem (str "html") []
              [Node.elem (str "script")
                  [(str "src", str "https://x.doubleclick.net/a.js")] [],
               Node.text (str "hi")])) =
        clean_html {remove_ads := true}
          (Node.elem (str "html") []
            [Node.elem (str "script") [(str "src", str "https://x.doubleclick.net/a.js")] [],
             Node.text (str "hi")]) := by
  have hwf : wfN (Node.elem (str "html") []
      [Node.elem (str "script") [(str "src", str "https://x.doubleclick.net/a.js")] [],
       Node.text (str "hi")]) = true := by
    simp [wfN, wfL, allText, str]
  exact ⟨hwf, (C9_clean_idempotent {remove_ads := true} _ hwf).1⟩

/-!  ### `app/proxy/rewriter.py` — the attribute sweep of `rewrite_html`

The attribute passes of `rewrite_html` (lines 465–518) each run `find_all`
over the document and update one URL-valued attribute per matching element;
per element the passes touch independent attributes, so they are modelled
as one per-element attribute transformation applied in code order during a
tree walk.  The inline-JS and CSS passes are not part of this model. -/

/-- `sep.join(pieces)`. -/
def joinWith (sep : Str) : List Str → Str
  | [] => []
  | [x] => x
  | x :: xs => x ++ sep ++ joinWith sep xs

/-- The `img[srcset]` pass body: tokenize on `,`, strip, rewrite the URL of
each `url [descriptor]` token. -/
def rewriteSrcset (rw : Str → Str) (srcset : Str) : Str :=
  joinWith (str ", ")
    ((splitAll ',' srcset).map (fun part =>
      let p := pyStrip part
      if ' ' ∈ p then rw (pyStrip (beforeLast ' ' p)) ++ ' ' :: afterLast ' ' p
      else rw p))

/-- Update attribute `name` through `rw` when the element's tag is `target`
and the attribute is present (`find_all(target, name=True)`). -/
def sweepOne (rw : Str → Str) (target name : Str) (tag : Str)
    (attrs : List (Str × Str)) : List (Str × Str) :=
  if tag = target then
    match getAttr attrs name with
    | some v => dictSet attrs name (rw v)
    | none => attrs
  else attrs

/-- The per-element effect of the attribute sweep of `rewrite_html`, in code
order.  The `<base>` pass reproduces the code exactly: it reads `href` but
assigns the rewritten URL to a new attribute named `base`
(`tag['base'] = rewrite(tag['href'])`). -/
def sweep_attrs (rw : Str → Str) (tag : Str) (attrs : List (Str × Str)) :
    List (Str × Str) :=
  let a1 := sweepOne rw (str "a") (str "href") tag attrs
  let a2 := sweepOne rw (str "form") (str "action") tag a1
  let a3 := sweepOne rw (str "iframe") (str "src") tag a2
  let a4 := sweepOne rw (str "link") (str "href") tag a3
  let a5 := sweepOne rw (str "script") (str "src") tag a4
  let a6 := sweepOne rw (str "img") (str "src") tag a5
  let a7 := sweepOne (rewriteSrcset rw) (str "img") (str "srcset") tag a6
  let a8 := sweepOne rw (str "source") (str "src") tag a7
  let a9 := sweepOne rw (str "video") (str "src") tag a8
  let a10 := sweepOne rw (str "audio") (str "src") tag a9
  if tag = str "base" then
    match getAttr a10 (str "href") with
    | some v => dictSet a10 (str "base") (rw v)
    | none => a10
  else a10

mutual
/-- The attribute sweep applied over the whole tree. -/
def rewriteHtmlN (rw : Str → Str) : Node → Node
  | .elem tag attrs children => .elem tag (sweep_attrs rw tag attrs) (rewriteHtmlL rw children)
  | .text s => .text s

/-- The list version of `rewriteHtmlN`. -/
def rewriteHtmlL (rw : Str → Str) : List Node → List Node
  | [] => []
  | c :: cs => rewriteHtmlN rw c :: rewriteHtmlL rw cs
end

/-- The attribute sweep of `rewrite_html`, with the URL rewriter of the
request instantiated. -/
def rewrite_html_attrs (mirror_host mirror_root site_source_root : Str)
    (cfg : EffectiveConfig) (current_page_origin_url : Str) (doc : Node) : Node :=
  rewriteHtmlN
    (fun u => rewrite_url u current_page_origin_url mirror_host mirror_root
      site_source_root cfg) doc

/-- C4 (code bug): the `<base>` pass does not rewrite `href`.  On a document
whose only element is `<base href="https://source.com/x">` the sweep leaves
`href` unchanged and instead stores the rewritten URL under a new attribute
named `base` — `rewriter.py` line 518 assigns `tag['base']` where its own
comment says it rewrites `<base href>`. -/
theorem C4_base_href_not_rewritten :
    rewrite_html_attrs (str "mirror.com") (str "mirror.com") (str "source.com") {}
        (str "https://source.com/")
        (Node.elem (str "base") [(str "href", str "https://source.com/x")] []) =
      Node.elem (str "base")
        [(str "href", str "https://source.com/x"),
         (str "base", str "https://mirror.com/x")] [] ∧
      str "https://source.com/x" ≠ str "https://mirror.com/x" := by
  constructor
  · rw [rewrite_html_attrs, rewriteHtmlN, rewriteHtmlL]
    congr 1
  · decide

/-!  ### `app/proxy/router.py` — redirect interception  -/

/-- A `Site` row as `proxy_handler` reads it. -/
structure Site where
  enabled : Bool
  mirror_root : Str
  source_root : Str
deriving DecidableEq, Repr

/-- `find_site_by_host(host, db)` from `app/proxy/router.py`: the first
enabled site whose `mirror_root` matches the host (exact or subdomain
match), after stripping the port. -/
def find_site_by_host (host : Str) (sites : List Site) : Option Site :=
  let host_without_port := if host.contains ':' then (splitFirst ':' host).1 else host
  (sites.filter (fun s => s.enabled)).find? (fun site =>
    decide (host_without_port = site.mirror_root) ||
      ('.' :: site.mirror_root).isSuffixOf host_without_port)

/-- The outcome of `proxy_handler` up to the point where a matched request
enters the proxy pipeline (SSRF check, origin fetch, response handling). -/
inductive HandlerOutcome where
  | rateLimited (retry_after : Int)
  | adminBlocked
  | noSite
  | proxied (site : Site) (origin_url : Str)
deriving DecidableEq, Repr

/-- `proxy_handler` after the rate-limit gate: the admin/local host guard
(404), site lookup (404 when none matches), and origin-URL construction
from the path and query of the request. -/
def proxy_handler_routing (admin_host host path query : Str)
    (sites : List Site) : HandlerOutcome :=
  if host = admin_host ∨ (str "0.0.0.0").isPrefixOf host ∨
      (str "localhost").isPrefixOf host then
    .adminBlocked
  else
    match find_site_by_host host sites with
    | none => .noSite
    | some site =>
      let mirror_path := if path.isEmpty then str "/" else '/' :: path
      let mirror_path2 := if query.isEmpty then mirror_path else mirror_path ++ '?' :: query
      .proxied site (build_origin_url (splitFirst ':' host).1 mirror_path2
        site.source_root (some site.mirror_root))

/-- `proxy_handler` (`app/proxy/router.py`) up to the proxy pipeline entry:
the Phase 9 rate-limit gate runs first (429 on denial), then everything in
`proxy_handler_routing`.  The rate limiter is the per-IP timestamp list of
`is_allowed`; the result carries the outcome and that list's new state. -/
def proxy_handler (admin_host host path query : Str) (sites : List Site)
    (enable_rate_limiting : Bool) (N W : Nat) (log : List ℚ) (now : ℚ) :
    HandlerOutcome × List ℚ :=
  if enable_rate_limiting then
    let r := is_allowed N W log now
    if r.1 then (proxy_handler_routing admin_host host path query sites, r.2.2)
    else (.rateLimited (get_retry_after W r.2.2 now), r.2.2)
  else (proxy_handler_routing admin_host host path query sites, log)

/-- C10 (amended): once past the rate-limit gate — rate limiting disabled or
the call admitted — a request whose host equals the admin host or begins
with `0.0.0.0` or `localhost` is answered 404 before site lookup, for every
site registry (in particular one whose enabled `mirror_root` matches). -/
theorem C10_admin_host_guard (admin_host host path query : Str) (sites : List Site)
    (erl : Bool) (N W : Nat) (log : List ℚ) (now : ℚ)
    (hhost : host = admin_host ∨ (str "0.0.0.0").isPrefixOf host ∨
      (str "localhost").isPrefixOf host)
    (hadm : erl = false ∨ (is_allowed N W log now).1 = true) :
    (proxy_handler admin_host host path query sites erl N W log now).1 =
      HandlerOutcome.adminBlocked := by
  have hroute : proxy_handler_routing admin_host host path query sites =
      HandlerOutcome.adminBlocked := by
    unfold proxy_handler_routing
    rw [if_pos hhost]
  unfold proxy_handler
  rcases hadm with rfl | hall
  · rw [if_neg (by simp : ¬(false = true))]
    exact hroute
  · by_cases he : erl = true
    · rw [if_pos he]
      dsimp only
      rw [hall, if_pos rfl]
      exact hroute
    · rw [if_neg he]
      exact hroute

/-- The guard at work on an admitted call: the admin host gets 404 even
though an enabled site's `mirror_root` equals that host. -/
theorem C10_admin_host_guard_witness :
    (proxy_handler (str "admin.local") (str "admin.local") (str "p") []
        [⟨true, str "admin.local", str "source.com"⟩] true 2 60 [] 0).1 =
      HandlerOutcome.adminBlocked :=
  C10_admin_host_guard (str "admin.local") (str "admin.local") (str "p") []
    [⟨true, str "admin.local", str "source.com"⟩] true 2 60 [] 0
    (by decide) (by decide)

/-- The claim as frozen is false: the rate-limit check precedes the admin
host guard, so a rate-limited request to the admin host is answered 429
(retry after 59 s here), not 404. -/
theorem C10_counterexample :
    (proxy_handler (str "admin.local") (str "admin.local") (str "p") []
        [⟨true, str "admin.local", str "source.com"⟩] true 1 60 [(59 : ℚ)] 60).1 ≠
      HandlerOutcome.adminBlocked ∧
    (proxy_handler (str "admin.local") (str "admin.local") (str "p") []
        [⟨true, str "admin.local", str "source.com"⟩] true 1 60 [(59 : ℚ)] 60).1 =
      HandlerOutcome.rateLimited 59 := by
  have hallow : is_allowed 1 60 [(59 : ℚ)] 60 = (false, 0, [(59 : ℚ)]) := by
    unfold is_allowed
    norm_num [List.filter]
  have hretry : get_retry_after 60 [(59 : ℚ)] 60 = 59 := by
    unfold get_retry_after minList pyInt
    norm_num
  have h : (proxy_handler (str "admin.local") (str "admin.local") (str "p") []
      [⟨true, str "admin.local", str "source.com"⟩] true 1 60 [(59 : ℚ)] 60).1 =
      HandlerOutcome.rateLimited 59 := by
    unfold proxy_handler
    rw [if_pos rfl]
    dsimp only
    rw [hallow]
    dsimp only
    rw [hretry]
    simp
  exact ⟨by rw [h]; decide, h⟩

example :
    build_origin_url (str "mirror.com") (str "/foo/bar") (str "source.com")
      (some (str "mirror.com")) = str "https://source.com/foo/bar" := by decide

example :
    build_origin_url (str "xyz.mirror.com") (str "/abc") (str "source.com")
      (some (str "mirror.com")) = str "https://xyz.source.com/abc" := by decide

example :
    build_origin_url (str "mirror.com") (str "/abc.external.com/path/to") (str "source.com")
      (some (str "mirror.com")) = str "https://abc.external.com/path/to" := by decide

end ProxiBase
